import Mathlib

/-!
Verification of the ordered map (red-black tree with a sentinel header node)
implemented in `src/map/map.hpp` of the STlite repository.

The pointer-based tree is shallowly embedded as a functional binary tree
together with a zipper (`Path`) that models the parent back-references:
a C++ node pointer corresponds to the pair (subtree rooted at the node,
path from the node up to the sentinel).  The sentinel itself is the empty
path `Path.root`: `sentinel->left` is the tree carried by the `MapS`
structure, and an iterator equal to the sentinel is modelled by `none`.

The key type is any linear order; `std::less<Key>` is `(· < ·)` and the
comparator-derived equivalence `!(a<b) && !(b<a)` is `eqk`.
-/

namespace SjtuMap

/-- Node colors, from `enum class Color` in map.hpp. -/
inductive Color where
  | RED
  | BLACK
deriving DecidableEq, Repr

/-- The tree of key/value nodes.  `nil` is a missing child (a null pointer);
`node c k v l r` is an `RBTNode` with color `c`, payload `(k, v)` (the
`data` field), left child `l` and right child `r`.  Parent pointers are not
stored: they are recovered by the `Path` zipper below. -/
inductive Tree (K V : Type) where
  | nil
  | node (c : Color) (k : K) (v : V) (l r : Tree K V)
deriving DecidableEq, Repr

/-- A path from a node position up to the sentinel; this models the chain of
parent pointers of map.hpp.  `left c k v sib p` means: the position is the
left child of a node colored `c` with payload `(k, v)` whose right child is
`sib`, and that node's own position is `p`.  `root` means the position is
`sentinel->left` (the node's parent is the sentinel), i.e. the constructor
tells the `direction()` of the node (LEFT / RIGHT / ROOT). -/
inductive Path (K V : Type) where
  | root
  | left (c : Color) (k : K) (v : V) (sib : Tree K V) (p : Path K V)
  | right (c : Color) (k : K) (v : V) (sib : Tree K V) (p : Path K V)
deriving DecidableEq, Repr

variable {K V : Type}

/-- Plug a subtree back into a path, recovering the whole tree
(`sentinel->left`). -/
def rebuild : Path K V → Tree K V → Tree K V
  | .root, t => t
  | .left c k v sib p, t => rebuild p (.node c k v t sib)
  | .right c k v sib p, t => rebuild p (.node c k v sib t)

/-- In-order traversal of the stored pairs. -/
def inorder : Tree K V → List (K × V)
  | .nil => []
  | .node _ k v l r => inorder l ++ (k, v) :: inorder r

/-- The keys of a tree in traversal order. -/
def keys (t : Tree K V) : List K := (inorder t).map Prod.fst

/-- Pairs of the surrounding tree that come before the focused subtree. -/
def inL : Path K V → List (K × V)
  | .root => []
  | .left _ _ _ _ p => inL p
  | .right _ k v sib p => inL p ++ inorder sib ++ [(k, v)]

/-- Pairs of the surrounding tree that come after the focused subtree. -/
def inR : Path K V → List (K × V)
  | .root => []
  | .left _ k v sib p => (k, v) :: inorder sib ++ inR p
  | .right _ _ _ _ p => inR p

theorem inorder_rebuild (p : Path K V) (t : Tree K V) :
    inorder (rebuild p t) = inL p ++ inorder t ++ inR p := by
  induction p generalizing t with
  | root => simp [rebuild, inL, inR]
  | left c k v sib p ih => simp [rebuild, inL, inR, ih, inorder]
  | right c k v sib p ih => simp [rebuild, inL, inR, ih, inorder]

/-- Number of black nodes on the contribution of one node (`isBlack`). -/
def bc : Color → Nat
  | .RED => 0
  | .BLACK => 1

/-- Uniform black height: `some n` when every path from the root of `t` to a
missing-child position passes through exactly `n` BLACK nodes, `none` when
the black counts disagree (invariant 4 of the spec). -/
def bhN : Tree K V → Option Nat
  | .nil => some 0
  | .node c _ _ l r =>
    match bhN l, bhN r with
    | some a, some b => if a = b then some (a + bc c) else none
    | _, _ => none

/-- The root of `t` is BLACK, or `t` is empty (a missing child counts as
BLACK, matching `isBlack` on null pointers in map.hpp). -/
def rootBlackB : Tree K V → Bool
  | .nil => true
  | .node c _ _ _ _ => c == Color.BLACK

/-- No RED node has a RED child (invariant 3 of the spec). -/
def noRedRed : Tree K V → Bool
  | .nil => true
  | .node c _ _ l r =>
    (match c with
     | .RED => rootBlackB l && rootBlackB r
     | .BLACK => true)
    && noRedRed l && noRedRed r

/-- Combined color invariants as an inductive relation: `IsRB t n` holds when
`t` has no RED node with a RED child and uniform black height `n`. -/
inductive IsRB : Tree K V → Nat → Prop where
  | nil : IsRB .nil 0
  | red (k : K) (v : V) {l r : Tree K V} {n : Nat} :
      IsRB l n → IsRB r n → rootBlackB l = true → rootBlackB r = true →
      IsRB (.node .RED k v l r) n
  | black (k : K) (v : V) {l r : Tree K V} {n : Nat} :
      IsRB l n → IsRB r n → IsRB (.node .BLACK k v l r) (n + 1)

theorem IsRB.to_checks {t : Tree K V} {n : Nat} (h : IsRB t n) :
    noRedRed t = true ∧ bhN t = some n := by
  induction h with
  | nil => simp [noRedRed, bhN]
  | red k v hl hr hbl hbr ihl ihr =>
    simp [noRedRed, bhN, ihl.1, ihr.1, ihl.2, ihr.2, hbl, hbr, bc]
  | black k v hl hr ihl ihr =>
    simp [noRedRed, bhN, ihl.1, ihr.1, ihl.2, ihr.2, bc]

theorem IsRB.of_checks {t : Tree K V} {n : Nat}
    (h1 : noRedRed t = true) (h2 : bhN t = some n) : IsRB t n := by
  induction t generalizing n with
  | nil =>
    simp [bhN] at h2
    subst h2; exact .nil
  | node c k v l r ihl ihr =>
    simp [bhN] at h2
    rcases h2' : bhN l with _ | a <;> rcases h2r : bhN r with _ | b <;>
      rw [h2', h2r] at h2 <;> simp at h2
    obtain ⟨hab, hn⟩ := h2
    subst hab
    cases c with
    | RED =>
      simp [noRedRed] at h1
      obtain ⟨⟨⟨hbl, hbr⟩, hnl⟩, hnr⟩ := h1
      simp [bc] at hn
      subst hn
      exact .red k v (ihl hnl h2') (ihr hnr h2r) hbl hbr
    | BLACK =>
      simp [noRedRed] at h1
      simp [bc] at hn
      subst hn
      exact .black k v (ihl h1.1 h2') (ihr h1.2 h2r)

/-- Paint the root of `t` BLACK (`node->color = Color::BLACK`). -/
def blackenRoot : Tree K V → Tree K V
  | .nil => .nil
  | .node _ k v l r => .node .BLACK k v l r

/-- Left rotation of the subtree rooted at `N` (`rotateLeft`): the right
child takes `N`'s position, its left subtree becomes `N`'s right subtree,
and `N` becomes the new left child; colors stay with the nodes.  Requires a
non-empty right child (the assertion), otherwise the tree is unchanged. -/
def rotateLeft : Tree K V → Tree K V
  | .node c k v l (.node rc rk rv rl rr) => .node rc rk rv (.node c k v l rl) rr
  | t => t

/-- Right rotation, the mirror of `rotateLeft`. -/
def rotateRight : Tree K V → Tree K V
  | .node c k v (.node lc lk lv ll lr) r => .node lc lk lv ll (.node c k v lr r)
  | t => t

section Ops

variable [LinearOrder K]

/-- Comparator-derived key equivalence `equal_key`: `!(x<y || y<x)`. -/
def eqk (x y : K) : Bool := !(decide (x < y)) && !(decide (y < x))

theorem eqk_iff (x y : K) : eqk x y = true ↔ x = y := by
  simp only [eqk, Bool.and_eq_true, Bool.not_eq_true', decide_eq_false_iff_not]
  constructor
  · rintro ⟨h1, h2⟩
    exact le_antisymm (le_of_not_lt h2) (le_of_not_lt h1)
  · rintro rfl
    exact ⟨lt_irrefl x, lt_irrefl x⟩

/-- The insert-fixup state machine `maintainAfterInsert`, written on the
zipper: the focused subtree is the node being repaired (RED), the path is
its chain of parent pointers.  Case numbering follows the source comments:
Case 1 root, Case 2 parent BLACK, Case 4 uncle RED (recursing on the
grandparent), Cases 5/6 uncle BLACK or absent (rotations, terminal).  The
unreachable RED-parent-at-root configurations (where `grandParent()` would
trip its assertion) rebuild the tree unchanged. -/
def maintainAfterInsert : Path K V → Tree K V → Tree K V
  | .root, t => blackenRoot t
  | .left .BLACK pk pv psib pp, t => rebuild (.left .BLACK pk pv psib pp) t
  | .right .BLACK pk pv psib pp, t => rebuild (.right .BLACK pk pv psib pp) t
  | .left .RED pk pv psib .root, t => rebuild (.left .RED pk pv psib .root) t
  | .right .RED pk pv psib .root, t => rebuild (.right .RED pk pv psib .root) t
  | .left .RED pk pv psib (.left _ gk gv gsib gpp), t =>
    match gsib with
    | .node .RED uk uv ul ur =>
      maintainAfterInsert gpp
        (.node .RED gk gv (.node .BLACK pk pv t psib) (.node .BLACK uk uv ul ur))
    | gsib =>
      rebuild gpp (.node .BLACK pk pv t (.node .RED gk gv psib gsib))
  | .right .RED pk pv psib (.left _ gk gv gsib gpp), t =>
    match gsib with
    | .node .RED uk uv ul ur =>
      maintainAfterInsert gpp
        (.node .RED gk gv (.node .BLACK pk pv psib t) (.node .BLACK uk uv ul ur))
    | gsib =>
      match t with
      | .nil => rebuild (.right .RED pk pv psib (.left .BLACK gk gv gsib gpp)) .nil
      | .node _ tk tv tl tr =>
        rebuild gpp
          (.node .BLACK tk tv (.node .RED pk pv psib tl) (.node .RED gk gv tr gsib))
  | .left .RED pk pv psib (.right _ gk gv gsib gpp), t =>
    match gsib with
    | .node .RED uk uv ul ur =>
      maintainAfterInsert gpp
        (.node .RED gk gv (.node .BLACK uk uv ul ur) (.node .BLACK pk pv t psib))
    | gsib =>
      match t with
      | .nil => rebuild (.left .RED pk pv psib (.right .BLACK gk gv gsib gpp)) .nil
      | .node _ tk tv tl tr =>
        rebuild gpp
          (.node .BLACK tk tv (.node .RED gk gv gsib tl) (.node .RED pk pv tr psib))
  | .right .RED pk pv psib (.right _ gk gv gsib gpp), t =>
    match gsib with
    | .node .RED uk uv ul ur =>
      maintainAfterInsert gpp
        (.node .RED gk gv (.node .BLACK uk uv ul ur) (.node .BLACK pk pv psib t))
    | gsib =>
      rebuild gpp (.node .BLACK pk pv (.node .RED gk gv gsib psib) t)

/-- The private recursive `insert`: descend comparing keys; an equal key
returns the existing node with `false` and no structural change, otherwise
a new RED node is created in the empty slot found.  The zipper of the
returned node is the `RBTNode*` the caller fixes up. -/
def insertGo (k : K) (v : V) : Tree K V → Path K V → Tree K V × Path K V × Bool
  | .nil, p => (.node .RED k v .nil .nil, p, true)
  | .node c k0 v0 l r, p =>
    if eqk k0 k then (.node c k0 v0 l r, p, false)
    else if k < k0 then insertGo k v l (.left c k0 v0 r p)
    else insertGo k v r (.right c k0 v0 l p)

/-- The private recursive `find`, returning the payload of the node found. -/
def findT (k : K) : Tree K V → Option (K × V)
  | .nil => none
  | .node _ k0 v0 l r =>
    if eqk k k0 then some (k0, v0)
    else if k < k0 then findT k l
    else findT k r

/-- The private recursive `find`, returning the node as a zipper (the node
pointer with its chain of parents). -/
def findZ (k : K) : Tree K V → Path K V → Option (Tree K V × Path K V)
  | .nil, _ => none
  | .node c k0 v0 l r, p =>
    if eqk k k0 then some (.node c k0 v0 l r, p)
    else if k < k0 then findZ k l (.left c k0 v0 r p)
    else findZ k r (.right c k0 v0 l p)

end Ops

/-- Descend to the leftmost node (`while (successor->left != nullptr)` and
the `begin()` loop), extending the path. -/
def zipLeft : Tree K V → Path K V → Tree K V × Path K V
  | .nil, p => (.nil, p)
  | .node c k v .nil r, p => (.node c k v .nil r, p)
  | .node c k v (.node lc lk lv ll lr) r, p =>
    zipLeft (.node lc lk lv ll lr) (.left c k v r p)

/-- Descend to the rightmost node (the `while (ptr->right)` loop of
`operator--`), extending the path. -/
def zipRight : Tree K V → Path K V → Tree K V × Path K V
  | .nil, p => (.nil, p)
  | .node c k v l .nil, p => (.node c k v l .nil, p)
  | .node c k v l (.node rc rk rv rl rr), p =>
    zipRight (.node rc rk rv rl rr) (.right c k v l p)

/-- The delete-fixup Cases 4 and 5 for a LEFT-child focus `t` whose parent
has payload `(c, pk, pv)` and whose BLACK sibling has payload `(sk, sv)` and
children `sl` (close nephew) and `sr` (distant nephew).  A RED close nephew
first rotates the sibling and swaps the two colors (Case 4), making the old
sibling the RED distant nephew; then Case 5 rotates the parent, gives the
new sibling the parent's old color and paints parent and distant nephew
BLACK.  Returns the subtree that takes the parent's position. -/
def remCases45L (c : Color) (pk : K) (pv : V) (t : Tree K V)
    (sk : K) (sv : V) (sl sr : Tree K V) : Tree K V :=
  match sl with
  | .node .RED clk clv cll clr =>
    .node c clk clv (.node .BLACK pk pv t cll) (.node .BLACK sk sv clr sr)
  | sl => .node c sk sv (.node .BLACK pk pv t sl) (blackenRoot sr)

/-- Mirror of `remCases45L` for a RIGHT-child focus: the sibling is the left
child `(sk, sv)` with close nephew `sr` and distant nephew `sl`. -/
def remCases45R (c : Color) (pk : K) (pv : V) (t : Tree K V)
    (sk : K) (sv : V) (sl sr : Tree K V) : Tree K V :=
  match sr with
  | .node .RED clk clv cll clr =>
    .node c clk clv (.node .BLACK sk sv sl cll) (.node .BLACK pk pv clr t)
  | sr => .node c sk sv (blackenRoot sl) (.node .BLACK pk pv sr t)

/-- The delete-fixup state machine `maintainAfterRemove` on the zipper: the
focused subtree occupies a position one BLACK node short of its sibling.
The fixup never inspects the focused subtree itself (only its direction,
parent and sibling), which is why the source may run it before unlinking a
leaf; here the focus is simply whatever occupies the position.  Case 1
(RED sibling) rotates the parent and repaints, after which the parent is
RED, so the both-nephews-BLACK continuation is the terminal Case 2; the
recursive Case 3 climbs to the parent.  Missing siblings (which would trip
`assert(node->hasSibling())`) rebuild the tree unchanged. -/
def maintainAfterRemove : Path K V → Tree K V → Tree K V
  | .root, t => t
  | .left pc pk pv sib pp, t =>
    match sib with
    | .nil => rebuild pp (.node pc pk pv t .nil)
    | .node .RED sk sv sl sr =>
      match sl with
      | .nil => rebuild pp (.node .BLACK sk sv (.node .RED pk pv t .nil) sr)
      | .node _ slk slv sll slr =>
        if rootBlackB sll && rootBlackB slr then
          rebuild pp
            (.node .BLACK sk sv
              (.node .BLACK pk pv t (.node .RED slk slv sll slr)) sr)
        else
          rebuild pp
            (.node .BLACK sk sv (remCases45L .RED pk pv t slk slv sll slr) sr)
    | .node .BLACK sk sv sl sr =>
      if rootBlackB sl && rootBlackB sr then
        match pc with
        | .RED => rebuild pp (.node .BLACK pk pv t (.node .RED sk sv sl sr))
        | .BLACK =>
          maintainAfterRemove pp (.node .BLACK pk pv t (.node .RED sk sv sl sr))
      else
        rebuild pp (remCases45L pc pk pv t sk sv sl sr)
  | .right pc pk pv sib pp, t =>
    match sib with
    | .nil => rebuild pp (.node pc pk pv .nil t)
    | .node .RED sk sv sl sr =>
      match sr with
      | .nil => rebuild pp (.node .BLACK sk sv sl (.node .RED pk pv .nil t))
      | .node _ srk srv srl srr =>
        if rootBlackB srl && rootBlackB srr then
          rebuild pp
            (.node .BLACK sk sv sl
              (.node .BLACK pk pv (.node .RED srk srv srl srr) t))
        else
          rebuild pp
            (.node .BLACK sk sv sl (remCases45R .RED pk pv t srk srv srl srr))
    | .node .BLACK sk sv sl sr =>
      if rootBlackB sl && rootBlackB sr then
        match pc with
        | .RED => rebuild pp (.node .BLACK pk pv (.node .RED sk sv sl sr) t)
        | .BLACK =>
          maintainAfterRemove pp (.node .BLACK pk pv (.node .RED sk sv sl sr) t)
      else
        rebuild pp (remCases45R pc pk pv t sk sv sl sr)

/-- Payload of the leftmost node (`successor` of the two-child case), with a
default for the impossible empty tree. -/
def minKV : Tree K V → K × V → K × V
  | .nil, d => d
  | .node _ k v .nil _, _ => (k, v)
  | .node _ _ _ (.node lc lk lv ll lr) _, d => minKV (.node lc lk lv ll lr) d

/-- Replace the payload of the leftmost node by `(k, v)` — the successor's
half of the structural `swapNode` (shape and colors stay in place, the two
payloads trade positions). -/
def setMinPayload (k : K) (v : V) : Tree K V → Tree K V
  | .nil => .nil
  | .node c _ _ .nil r => .node c k v .nil r
  | .node c k0 v0 (.node lc lk lv ll lr) r =>
    .node c k0 v0 (setMinPayload k v (.node lc lk lv ll lr)) r

/-- Splice the single child `repl` into the removed node's position: if the
removed node was BLACK, a RED replacement is recolored BLACK, a BLACK
replacement gets the delete fixup. -/
def spliceChild (c : Color) (repl : Tree K V) (p : Path K V) : Tree K V :=
  match c with
  | .RED => rebuild p repl
  | .BLACK =>
    if rootBlackB repl then maintainAfterRemove p repl
    else rebuild p (blackenRoot repl)

/-- Cases 2 and 3 of `remove(RBTNode*)`, for a focus with at most one
child: a BLACK leaf runs the delete fixup (with the position already
vacated, see `maintainAfterRemove`) and is unlinked, a RED leaf is simply
unlinked; a single child is spliced into the position, recoloring a RED
replacement BLACK or recursing the fixup on a BLACK replacement. -/
def removeBase : Tree K V → Path K V → Tree K V
  | .node .BLACK _ _ .nil .nil, p => maintainAfterRemove p .nil
  | .node .RED _ _ .nil .nil, p => rebuild p .nil
  | .node c _ _ (.node lc lk lv ll lr) .nil, p =>
    spliceChild c (.node lc lk lv ll lr) p
  | .node c _ _ .nil (.node rc rk rv rl rr), p =>
    spliceChild c (.node rc rk rv rl rr) p
  | t, p => rebuild p t

/-- The member `remove(RBTNode*)` reached from `erase`, minus the
`size()==1` short-circuit (kept in `mapErase`): a strictly internal node
first exchanges structural identities with its in-order successor
(`swapNode`), reducing to the at-most-one-child `removeBase` at the
successor's position. -/
def removeAt : Tree K V → Path K V → Tree K V
  | .node c k v (.node lc lk lv ll lr) (.node rc rk rv rl rr), p =>
    let l := Tree.node lc lk lv ll lr
    let r := Tree.node rc rk rv rl rr
    let s := minKV r (k, v)
    let z := zipLeft (setMinPayload k v r) (.right c s.1 s.2 l p)
    removeBase z.1 z.2
  | t, p => removeBase t p

/-- The payload behind a node pointer (`ptr->data`); `none` is the null
data pointer of the sentinel. -/
def payload : Tree K V → Option (K × V)
  | .nil => none
  | .node _ k v _ _ => some (k, v)

/-- An iterator's node pointer: `none` is the sentinel (`end()`),
`some (f, p)` is a real node given as a zipper. -/
abbrev It (K V : Type) : Type := Option (Tree K V × Path K V)

/-- Climb parent links while arriving from a right child (the
`direction() == RIGHT` loop of `operator++`), reassembling the tree. -/
def upRights : Tree K V → Path K V → Tree K V × Path K V
  | t, .right c k v sib p => upRights (.node c k v sib t) p
  | t, p => (t, p)

/-- Climb parent links while arriving from a left child (the
`direction() == LEFT` loop of `operator--`), reassembling the tree. -/
def upLefts : Tree K V → Path K V → Tree K V × Path K V
  | t, .left c k v sib p => upLefts (.node c k v t sib) p
  | t, p => (t, p)

/-- Prefix `operator++`: throws (`none`) on the sentinel; with a right child
it moves to the leftmost node of that subtree, otherwise it climbs until it
arrives via a left-child step (the sentinel — `end()` — if the climb leaves
the root). -/
def itInc (it : It K V) : Option (It K V) :=
  match it with
  | none => none
  | some (f, p) =>
    match f with
    | .nil => none
    | .node c k v l (.node rc rk rv rl rr) =>
      some (some (zipLeft (.node rc rk rv rl rr) (.right c k v l p)))
    | .node c k v l .nil =>
      match upRights (.node c k v l .nil) p with
      | (g, .left pc pk pv sib pp) => some (some (.node pc pk pv g sib, pp))
      | (_, _) => some none

/-- The `begin()` iterator: leftmost descendant of the sentinel, i.e. the
sentinel itself (`none`) when the tree is empty. -/
def itBegin : Tree K V → It K V
  | .nil => none
  | .node c k v l r => some (zipLeft (.node c k v l r) .root)

/-- Prefix `operator--`: first computes `begin_ptr` and throws (`none`) when
the iterator equals it; decrementing the sentinel yields the rightmost node
(the sentinel's left child is the root); with a left child it moves to the
rightmost node of that subtree; otherwise it climbs until it arrives via a
right-child step and steps to that ancestor. -/
def itDec [DecidableEq K] [DecidableEq V] (t : Tree K V) (it : It K V) :
    Option (It K V) :=
  if it = itBegin t then none
  else
    match it with
    | none => some (some (zipRight t .root))
    | some (f, p) =>
      match f with
      | .nil => some none
      | .node c k v (.node lc lk lv ll lr) r =>
        some (some (zipRight (.node lc lk lv ll lr) (.left c k v r p)))
      | .node c k v .nil r =>
        match upLefts (.node c k v .nil r) p with
        | (g, .right pc pk pv sib pp) => some (some (.node pc pk pv sib g, pp))
        | (_, _) => some none

/-- Dereference `operator*`: throws `invalid_iterator` on the sentinel,
otherwise returns the stored pair. -/
def itStar (it : It K V) : Except Unit (K × V) :=
  match it with
  | none => .error ()
  | some (f, _) =>
    match payload f with
    | some x => .ok x
    | none => .error ()

/-- Member access `operator->`: performs no validity check and simply
returns `ptr->data` — the sentinel's null data pointer (`none`) for the
`end()` iterator.  Unlike `itStar` it cannot raise `invalid_iterator`. -/
def itArrow (it : It K V) : Option (K × V) :=
  match it with
  | none => none
  | some (f, _) => payload f

/-- A map object: `tree` is `sentinel->left`, `len` the element count. -/
structure MapS (K V : Type) where
  tree : Tree K V
  len : Nat
deriving DecidableEq

/-- The default constructor: empty tree under a fresh sentinel. -/
def emptyMap : MapS K V := ⟨.nil, 0⟩

section Facade

variable [LinearOrder K] [DecidableEq V]

/-- Public `insert(pair)`: descend with the private `insert`, run the insert
fixup and bump `len` only when a node was created.  The middle component is
the payload of the node the returned iterator designates. -/
def mapInsert (m : MapS K V) (k : K) (v : V) : MapS K V × (K × V) × Bool :=
  match insertGo k v m.tree .root with
  | (t', p', true) => (⟨maintainAfterInsert p' t', m.len + 1⟩, (k, v), true)
  | (t', _, false) => (m, (payload t').getD (k, v), false)

/-- An iterator value together with the identity (`map_ptr`) of the map
instance it was created from. -/
structure MIter (K V : Type) where
  owner : Nat
  it : It K V

/-- Public `erase(pos)` of the map instance with address `mid`: throws
`invalid_iterator` when `pos == end()` or when the iterator belongs to a
different instance; otherwise runs `remove(pos.ptr)` (whose `size()==1`
case just empties the tree) and decrements `len`. -/
def mapErase (mid : Nat) (m : MapS K V) (pos : MIter K V) :
    Except Unit (MapS K V) :=
  if (pos.it = none ∧ pos.owner = mid) ∨ pos.owner ≠ mid then .error ()
  else
    match pos.it with
    | none => .error ()
    | some (f, p) => .ok ⟨if m.len = 1 then .nil else removeAt f p, m.len - 1⟩

/-- Erasure through a key: `erase(find(key))`.  When `find` returns `end()`
the erase call throws `invalid_iterator` and the map is unchanged. -/
def eraseByKey (m : MapS K V) (k : K) : MapS K V :=
  match findZ k m.tree .root with
  | none => m
  | some (f, p) => ⟨if m.len = 1 then .nil else removeAt f p, m.len - 1⟩

/-- Bounds-checked lookup `at(key)`: `index_out_of_bound` when absent. -/
def mapAt (m : MapS K V) (k : K) : Except Unit V :=
  match findT k m.tree with
  | some x => .ok x.2
  | none => .error ()

/-- Mutable `operator[]`: `insert(value_type(key, T()))` with the
default-constructed value, returning (a reference to) the mapped value of
the target node. -/
def mapBracket [Inhabited V] (m : MapS K V) (k : K) : MapS K V × V :=
  let r := mapInsert m k default
  (r.1, r.2.1.2)

/-- Read-only `operator[] const`: behaves like `at`, throwing
`index_out_of_bound` when the key is absent, never inserting. -/
def mapBracketC (m : MapS K V) (k : K) : Except Unit V :=
  match findT k m.tree with
  | some x => .ok x.2
  | none => .error ()

/-- Public `count(key)`: 1 when found, 0 otherwise. -/
def mapCount (m : MapS K V) (k : K) : Nat :=
  match findT k m.tree with
  | some _ => 1
  | none => 0

/-- Public `find(key)`: iterator to the node, or `end()` (`none`). -/
def mapFind (m : MapS K V) (k : K) : It K V :=
  findZ k m.tree .root

end Facade

/-- Recursive deep clone (the private `copy`): a fresh node with the same
payload and color, then clone both children and wire their parents. -/
def copyT : Tree K V → Tree K V
  | .nil => .nil
  | .node c k v l r => .node c k v (copyT l) (copyT r)

/-- Assignment `operator=`: self-assignment (`this == &other`, compared here
through the instance addresses `aid`/`bid`) returns at once.  Otherwise
`clear(sentinel->left)` frees the old nodes — but the private `clear` takes
its node pointer by value, so the member `sentinel->left` itself keeps
pointing at the freed root — and `copy(sentinel->left, other.sentinel->left)`
assigns the member only when the source root is non-null (`copy` returns at
once on a null `ori`).  Hence with a non-empty destination and an empty
source the member is left dangling over freed memory (and
`sentinel->left->parent = sentinel` even writes through it): that state, in
which every later traversal is a use after free, is `none`.  On every other
path the member ends up a fresh deep clone of the source tree. -/
def mapAssign (aid bid : Nat) (a b : MapS K V) : Option (MapS K V) :=
  if aid = bid then some a
  else
    match b.tree, a.tree with
    | .nil, .node _ _ _ _ _ => none
    | .nil, .nil => some ⟨.nil, b.len⟩
    | t, _ => some ⟨copyT t, b.len⟩

/-- One public mutating operation for the reachable-states theorem:
`ins` is `insert((k, v))`, `del` is `erase(find(k))`. -/
inductive Op (K V : Type) where
  | ins (k : K) (v : V)
  | del (k : K)

/-- Apply one public operation. -/
def applyOp [LinearOrder K] (m : MapS K V) : Op K V → MapS K V
  | .ins k v => (mapInsert m k v).1
  | .del k => eraseByKey m k

/-- The state after a sequence of public operations on a fresh map. -/
def runOps [LinearOrder K] (ops : List (Op K V)) : MapS K V :=
  ops.foldl applyOp emptyMap

/-!
### Rotations and fixups only permute links and colors

The in-order sequence of stored pairs is untouched by every rebalancing
step, which carries both the BST-order part of invariant 1 and the frame
conditions of the facade operations.
-/

theorem inorder_blackenRoot (t : Tree K V) : inorder (blackenRoot t) = inorder t := by
  cases t <;> simp [blackenRoot, inorder]

theorem inorder_rotateLeft (t : Tree K V) : inorder (rotateLeft t) = inorder t := by
  unfold rotateLeft
  split <;> simp [inorder]

theorem inorder_rotateRight (t : Tree K V) : inorder (rotateRight t) = inorder t := by
  unfold rotateRight
  split <;> simp [inorder]

theorem inorder_mAI (p : Path K V) (t : Tree K V) :
    inorder (maintainAfterInsert p t) = inL p ++ inorder t ++ inR p := by
  induction p, t using maintainAfterInsert.induct <;>
    simp_all [maintainAfterInsert, inorder_rebuild, inorder, inL, inR, inorder_blackenRoot]

theorem inorder_remCases45L (c : Color) (pk : K) (pv : V) (t : Tree K V)
    (sk : K) (sv : V) (sl sr : Tree K V) :
    inorder (remCases45L c pk pv t sk sv sl sr) =
      inorder t ++ (pk, pv) :: (inorder sl ++ (sk, sv) :: inorder sr) := by
  unfold remCases45L
  cases sl <;> simp [inorder, inorder_blackenRoot]
  rename_i c' _ _ _ _
  cases c' <;> simp [inorder, inorder_blackenRoot]

theorem inorder_remCases45R (c : Color) (pk : K) (pv : V) (t : Tree K V)
    (sk : K) (sv : V) (sl sr : Tree K V) :
    inorder (remCases45R c pk pv t sk sv sl sr) =
      (inorder sl ++ (sk, sv) :: inorder sr) ++ (pk, pv) :: inorder t := by
  unfold remCases45R
  cases sr <;> simp [inorder, inorder_blackenRoot]
  rename_i c' _ _ _ _
  cases c' <;> simp [inorder, inorder_blackenRoot]

theorem inorder_mAR (p : Path K V) (t : Tree K V) :
    inorder (maintainAfterRemove p t) = inL p ++ inorder t ++ inR p := by
  induction p, t using maintainAfterRemove.induct <;>
    simp only [maintainAfterRemove] <;>
    (try split_ifs) <;>
    simp_all [inorder_rebuild, inorder, inL, inR,
      inorder_remCases45L, inorder_remCases45R]


/-!
### Color invariants through the zipper

`CtxOK p n` says the surrounding tree is a well-colored context whose hole
expects a subtree of black height `n`: every stored sibling is a valid
red-black subtree of the matching black height, a RED node never hangs
under a RED node or at the root, and the root of the whole tree is BLACK.
-/

/-- Color of the node owning the focused position (the sentinel counts as
BLACK for the root position). -/
def pcol : Path K V → Color
  | .root => .BLACK
  | .left c _ _ _ _ => c
  | .right c _ _ _ _ => c

/-- Well-colored context with a hole of black height `n`. -/
def CtxOK : Path K V → Nat → Prop
  | .root, _ => True
  | .left c _ _ sib pp, n =>
    IsRB sib n ∧ (c = .RED → pcol pp = .BLACK ∧ rootBlackB sib = true) ∧
      (pp = .root → c = .BLACK) ∧ CtxOK pp (n + bc c)
  | .right c _ _ sib pp, n =>
    IsRB sib n ∧ (c = .RED → pcol pp = .BLACK ∧ rootBlackB sib = true) ∧
      (pp = .root → c = .BLACK) ∧ CtxOK pp (n + bc c)

/-- Valid tree: color invariants hold and the root is BLACK (or empty). -/
def RBgood (t : Tree K V) : Prop :=
  (∃ n, IsRB t n) ∧ rootBlackB t = true

theorem IsRB.nil_inv {n : Nat} (h : IsRB (.nil : Tree K V) n) : n = 0 := by
  cases h; rfl

theorem IsRB.red_inv {k : K} {v : V} {l r : Tree K V} {n : Nat}
    (h : IsRB (.node .RED k v l r) n) :
    IsRB l n ∧ IsRB r n ∧ rootBlackB l = true ∧ rootBlackB r = true := by
  cases h with
  | red _ _ hl hr hbl hbr => exact ⟨hl, hr, hbl, hbr⟩

theorem IsRB.black_inv {k : K} {v : V} {l r : Tree K V} {n : Nat}
    (h : IsRB (.node .BLACK k v l r) n) :
    ∃ m, n = m + 1 ∧ IsRB l m ∧ IsRB r m := by
  cases h with
  | black _ _ hl hr => exact ⟨_, rfl, hl, hr⟩

theorem rebuild_RB :
    ∀ (p : Path K V) (t : Tree K V) (n : Nat), CtxOK p n → IsRB t n →
      (pcol p = .RED → rootBlackB t = true) →
      (p = .root → rootBlackB t = true) →
      RBgood (rebuild p t) := by
  intro p
  induction p with
  | root =>
    intro t n _ ht hc hr
    exact ⟨⟨n, ht⟩, hr rfl⟩
  | left c k v sib pp ih =>
    intro t n hctx ht hc _
    obtain ⟨hsib, hred, hroot, hctx'⟩ := hctx
    have hfit : IsRB (Tree.node c k v t sib) (n + bc c) := by
      cases c with
      | RED =>
        exact .red k v ht hsib (hc rfl) (hred rfl).2
      | BLACK =>
        exact .black k v ht hsib
    refine ih (Tree.node c k v t sib) (n + bc c) hctx' hfit ?_ ?_
    · intro hpc
      cases c with
      | RED => exact absurd ((hred rfl).1) (by simp [hpc])
      | BLACK => simp [rootBlackB]
    · intro hpp
      have := hroot hpp
      subst this
      simp [rootBlackB]
  | right c k v sib pp ih =>
    intro t n hctx ht hc _
    obtain ⟨hsib, hred, hroot, hctx'⟩ := hctx
    have hfit : IsRB (Tree.node c k v sib t) (n + bc c) := by
      cases c with
      | RED =>
        exact .red k v hsib ht (hred rfl).2 (hc rfl)
      | BLACK =>
        exact .black k v hsib ht
    refine ih (Tree.node c k v sib t) (n + bc c) hctx' hfit ?_ ?_
    · intro hpc
      cases c with
      | RED => exact absurd ((hred rfl).1) (by simp [hpc])
      | BLACK => simp [rootBlackB]
    · intro hpp
      have := hroot hpp
      subst this
      simp [rootBlackB]


theorem redNode_of_rootBlackB_false {t : Tree K V} (h : rootBlackB t = false) :
    ∃ k v l r, t = .node .RED k v l r := by
  cases t with
  | nil => simp [rootBlackB] at h
  | node c k v l r =>
    cases c with
    | RED => exact ⟨k, v, l, r, rfl⟩
    | BLACK => simp [rootBlackB] at h

theorem rootBlackB_of_not_redNode {t : Tree K V}
    (h : ∀ k v l r, t = Tree.node .RED k v l r → False) : rootBlackB t = true := by
  cases t with
  | nil => rfl
  | node c k v l r =>
    cases c with
    | RED => exact absurd rfl (h k v l r)
    | BLACK => rfl

theorem insFix_ok (p : Path K V) (t : Tree K V) :
    ∀ n, CtxOK p n → IsRB t n → rootBlackB t = false →
      RBgood (maintainAfterInsert p t) := by
  induction p, t using maintainAfterInsert.induct with
  | case1 t =>
    intro n _ ht hred
    obtain ⟨k, v, l, r, rfl⟩ := redNode_of_rootBlackB_false hred
    obtain ⟨hl, hr, _, _⟩ := ht.red_inv
    exact ⟨⟨n + 1, .black k v hl hr⟩, by simp [maintainAfterInsert, blackenRoot, rootBlackB]⟩
  | case2 pk pv psib pp t =>
    intro n hctx ht _
    simpa [maintainAfterInsert] using
      rebuild_RB _ t n hctx ht (by simp [pcol]) (by simp)
  | case3 pk pv psib pp t =>
    intro n hctx ht _
    simpa [maintainAfterInsert] using
      rebuild_RB _ t n hctx ht (by simp [pcol]) (by simp)
  | case4 pk pv psib t =>
    intro n hctx _ _
    simp only [CtxOK] at hctx
    exact absurd (hctx.2.2.1 (by trivial)) (by simp)
  | case5 pk pv psib t =>
    intro n hctx _ _
    simp only [CtxOK] at hctx
    exact absurd (hctx.2.2.1 (by trivial)) (by simp)
  | case6 pk pv psib gc gk gv gpp t uk uv ul ur ih =>
    intro n hctx ht _
    simp only [CtxOK, pcol, bc, Nat.add_zero] at hctx
    obtain ⟨hpsib, himp, -, hU, -, -, hctxg⟩ := hctx
    obtain ⟨hgc, hpsibB⟩ := himp (by trivial)
    subst hgc
    obtain ⟨hul, hur, hulB, hurB⟩ := hU.red_inv
    simp only [maintainAfterInsert]
    exact ih (n + 1) (by simpa [bc] using hctxg)
      (.red gk gv (.black pk pv ht hpsib) (.black uk uv hul hur) rfl rfl) rfl
  | case7 pk pv psib gc gk gv gpp t gsib hx =>
    intro n hctx ht _
    simp only [CtxOK, pcol, bc, Nat.add_zero] at hctx
    obtain ⟨hpsib, himp, -, hU, -, -, hctxg⟩ := hctx
    obtain ⟨hgc, hpsibB⟩ := himp (by trivial)
    subst hgc
    have hgB : rootBlackB gsib = true := rootBlackB_of_not_redNode hx
    simp only [maintainAfterInsert]
    exact rebuild_RB gpp _ (n + 1) (by simpa [bc] using hctxg)
        (.black pk pv ht (.red gk gv hpsib hU hpsibB hgB))
        (by simp [rootBlackB]) (by simp [rootBlackB])
  | case8 pk pv psib gc gk gv gpp t uk uv ul ur ih =>
    intro n hctx ht _
    simp only [CtxOK, pcol, bc, Nat.add_zero] at hctx
    obtain ⟨hpsib, himp, -, hU, -, -, hctxg⟩ := hctx
    obtain ⟨hgc, hpsibB⟩ := himp (by trivial)
    subst hgc
    obtain ⟨hul, hur, hulB, hurB⟩ := hU.red_inv
    simp only [maintainAfterInsert]
    exact ih (n + 1) (by simpa [bc] using hctxg)
      (.red gk gv (.black pk pv hpsib ht) (.black uk uv hul hur) rfl rfl) rfl
  | case9 pk pv psib gc gk gv gpp gsib hx =>
    intro n _ _ hred
    simp [rootBlackB] at hred
  | case10 pk pv psib gc gk gv gpp gsib hx tc tk tv tl tr =>
    intro n hctx ht hred
    simp only [CtxOK, pcol, bc, Nat.add_zero] at hctx
    obtain ⟨hpsib, himp, -, hU, -, -, hctxg⟩ := hctx
    obtain ⟨hgc, hpsibB⟩ := himp (by trivial)
    subst hgc
    have hgB : rootBlackB gsib = true := rootBlackB_of_not_redNode hx
    have htc : tc = Color.RED := by
      cases tc
      · rfl
      · simp [rootBlackB] at hred
    subst htc
    obtain ⟨htl, htr, htlB, htrB⟩ := ht.red_inv
    simp only [maintainAfterInsert]
    exact rebuild_RB gpp _ (n + 1) (by simpa [bc] using hctxg)
        (.black tk tv (.red pk pv hpsib htl hpsibB htlB) (.red gk gv htr hU htrB hgB))
        (by simp [rootBlackB]) (by simp [rootBlackB])
  | case11 pk pv psib gc gk gv gpp t uk uv ul ur ih =>
    intro n hctx ht _
    simp only [CtxOK, pcol, bc, Nat.add_zero] at hctx
    obtain ⟨hpsib, himp, -, hU, -, -, hctxg⟩ := hctx
    obtain ⟨hgc, hpsibB⟩ := himp (by trivial)
    subst hgc
    obtain ⟨hul, hur, hulB, hurB⟩ := hU.red_inv
    simp only [maintainAfterInsert]
    exact ih (n + 1) (by simpa [bc] using hctxg)
      (.red gk gv (.black uk uv hul hur) (.black pk pv ht hpsib) rfl rfl) rfl
  | case12 pk pv psib gc gk gv gpp gsib hx =>
    intro n _ _ hred
    simp [rootBlackB] at hred
  | case13 pk pv psib gc gk gv gpp gsib hx tc tk tv tl tr =>
    intro n hctx ht hred
    simp only [CtxOK, pcol, bc, Nat.add_zero] at hctx
    obtain ⟨hpsib, himp, -, hU, -, -, hctxg⟩ := hctx
    obtain ⟨hgc, hpsibB⟩ := himp (by trivial)
    subst hgc
    have hgB : rootBlackB gsib = true := rootBlackB_of_not_redNode hx
    have htc : tc = Color.RED := by
      cases tc
      · rfl
      · simp [rootBlackB] at hred
    subst htc
    obtain ⟨htl, htr, htlB, htrB⟩ := ht.red_inv
    simp only [maintainAfterInsert]
    exact rebuild_RB gpp _ (n + 1) (by simpa [bc] using hctxg)
        (.black tk tv (.red gk gv hU htl hgB htlB) (.red pk pv htr hpsib htrB hpsibB))
        (by simp [rootBlackB]) (by simp [rootBlackB])
  | case14 pk pv psib gc gk gv gpp t uk uv ul ur ih =>
    intro n hctx ht _
    simp only [CtxOK, pcol, bc, Nat.add_zero] at hctx
    obtain ⟨hpsib, himp, -, hU, -, -, hctxg⟩ := hctx
    obtain ⟨hgc, hpsibB⟩ := himp (by trivial)
    subst hgc
    obtain ⟨hul, hur, hulB, hurB⟩ := hU.red_inv
    simp only [maintainAfterInsert]
    exact ih (n + 1) (by simpa [bc] using hctxg)
      (.red gk gv (.black uk uv hul hur) (.black pk pv hpsib ht) rfl rfl) rfl
  | case15 pk pv psib gc gk gv gpp t gsib hx =>
    intro n hctx ht _
    simp only [CtxOK, pcol, bc, Nat.add_zero] at hctx
    obtain ⟨hpsib, himp, -, hU, -, -, hctxg⟩ := hctx
    obtain ⟨hgc, hpsibB⟩ := himp (by trivial)
    subst hgc
    have hgB : rootBlackB gsib = true := rootBlackB_of_not_redNode hx
    simp only [maintainAfterInsert]
    exact rebuild_RB gpp _ (n + 1) (by simpa [bc] using hctxg)
        (.black pk pv (.red gk gv hU hpsib hgB hpsibB) ht)
        (by simp [rootBlackB]) (by simp [rootBlackB])


theorem remCases45L_ok {c : Color} {pk : K} {pv : V} {t : Tree K V}
    {sk : K} {sv : V} {sl sr : Tree K V} {n : Nat}
    (ht : IsRB t n)
    (hsl : IsRB sl n) (hsr : IsRB sr n)
    (hne : ¬(rootBlackB sl = true ∧ rootBlackB sr = true)) :
    IsRB (remCases45L c pk pv t sk sv sl sr) (n + 1 + bc c) ∧
      rootBlackB (remCases45L c pk pv t sk sv sl sr) = (c == Color.BLACK) := by
  unfold remCases45L
  cases sl with
  | node slc clk clv cll clr =>
    cases slc with
    | RED =>
      obtain ⟨hcll, hclr, hcllB, hclrB⟩ := hsl.red_inv
      have h1 : IsRB (Tree.node .BLACK pk pv t cll) (n + 1) := .black pk pv ht hcll
      have h2 : IsRB (Tree.node .BLACK sk sv clr sr) (n + 1) := .black sk sv hclr hsr
      cases c with
      | RED => exact ⟨.red clk clv h1 h2 rfl rfl, by simp [rootBlackB, bc]⟩
      | BLACK => exact ⟨.black clk clv h1 h2, by simp [rootBlackB, bc]⟩
    | BLACK =>
      have hslB : rootBlackB (Tree.node .BLACK clk clv cll clr) = true := rfl
      have hsrR : rootBlackB sr = false := by
        rcases h : rootBlackB sr
        · rfl
        · exact absurd ⟨hslB, h⟩ hne
      obtain ⟨srk, srv, srl, srr, rfl⟩ := redNode_of_rootBlackB_false hsrR
      obtain ⟨hsrl, hsrr, hsrlB, hsrrB⟩ := hsr.red_inv
      have h1 : IsRB (Tree.node .BLACK pk pv t (Tree.node .BLACK clk clv cll clr)) (n + 1) :=
        .black pk pv ht hsl
      have h2 : IsRB (blackenRoot (Tree.node .RED srk srv srl srr)) (n + 1) := by
        simpa [blackenRoot] using IsRB.black srk srv hsrl hsrr
      cases c with
      | RED => exact ⟨.red sk sv h1 h2 rfl rfl, by simp [rootBlackB, bc]⟩
      | BLACK => exact ⟨.black sk sv h1 h2, by simp [rootBlackB, bc]⟩
  | nil =>
    have hsrR : rootBlackB sr = false := by
      rcases h : rootBlackB sr
      · rfl
      · exact absurd ⟨rfl, h⟩ hne
    obtain ⟨srk, srv, srl, srr, rfl⟩ := redNode_of_rootBlackB_false hsrR
    obtain ⟨hsrl, hsrr, hsrlB, hsrrB⟩ := hsr.red_inv
    have h1 : IsRB (Tree.node .BLACK pk pv t .nil) (n + 1) := by
      have := hsl.nil_inv
      subst this
      exact .black pk pv ht hsl
    have h2 : IsRB (blackenRoot (Tree.node .RED srk srv srl srr)) (n + 1) := by
      simpa [blackenRoot] using IsRB.black srk srv hsrl hsrr
    cases c with
    | RED => exact ⟨.red sk sv h1 h2 rfl rfl, by simp [rootBlackB, bc]⟩
    | BLACK => exact ⟨.black sk sv h1 h2, by simp [rootBlackB, bc]⟩

theorem remCases45R_ok {c : Color} {pk : K} {pv : V} {t : Tree K V}
    {sk : K} {sv : V} {sl sr : Tree K V} {n : Nat}
    (ht : IsRB t n)
    (hsl : IsRB sl n) (hsr : IsRB sr n)
    (hne : ¬(rootBlackB sl = true ∧ rootBlackB sr = true)) :
    IsRB (remCases45R c pk pv t sk sv sl sr) (n + 1 + bc c) ∧
      rootBlackB (remCases45R c pk pv t sk sv sl sr) = (c == Color.BLACK) := by
  unfold remCases45R
  cases sr with
  | node src clk clv cll clr =>
    cases src with
    | RED =>
      obtain ⟨hcll, hclr, hcllB, hclrB⟩ := hsr.red_inv
      have h1 : IsRB (Tree.node .BLACK sk sv sl cll) (n + 1) := .black sk sv hsl hcll
      have h2 : IsRB (Tree.node .BLACK pk pv clr t) (n + 1) := .black pk pv hclr ht
      cases c with
      | RED => exact ⟨.red clk clv h1 h2 rfl rfl, by simp [rootBlackB, bc]⟩
      | BLACK => exact ⟨.black clk clv h1 h2, by simp [rootBlackB, bc]⟩
    | BLACK =>
      have hsrB : rootBlackB (Tree.node .BLACK clk clv cll clr) = true := rfl
      have hslR : rootBlackB sl = false := by
        rcases h : rootBlackB sl
        · rfl
        · exact absurd ⟨h, hsrB⟩ hne
      obtain ⟨slk, slv, sll, slr, rfl⟩ := redNode_of_rootBlackB_false hslR
      obtain ⟨hsll, hslr, hsllB, hslrB⟩ := hsl.red_inv
      have h1 : IsRB (blackenRoot (Tree.node .RED slk slv sll slr)) (n + 1) := by
        simpa [blackenRoot] using IsRB.black slk slv hsll hslr
      have h2 : IsRB (Tree.node .BLACK pk pv (Tree.node .BLACK clk clv cll clr) t) (n + 1) :=
        .black pk pv hsr ht
      cases c with
      | RED => exact ⟨.red sk sv h1 h2 rfl rfl, by simp [rootBlackB, bc]⟩
      | BLACK => exact ⟨.black sk sv h1 h2, by simp [rootBlackB, bc]⟩
  | nil =>
    have hslR : rootBlackB sl = false := by
      rcases h : rootBlackB sl
      · rfl
      · exact absurd ⟨h, rfl⟩ hne
    obtain ⟨slk, slv, sll, slr, rfl⟩ := redNode_of_rootBlackB_false hslR
    obtain ⟨hsll, hslr, hsllB, hslrB⟩ := hsl.red_inv
    have h1 : IsRB (blackenRoot (Tree.node .RED slk slv sll slr)) (n + 1) := by
      simpa [blackenRoot] using IsRB.black slk slv hsll hslr
    have h2 : IsRB (Tree.node .BLACK pk pv .nil t) (n + 1) := by
      have := hsr.nil_inv
      subst this
      exact .black pk pv hsr ht
    cases c with
    | RED => exact ⟨.red sk sv h1 h2 rfl rfl, by simp [rootBlackB, bc]⟩
    | BLACK => exact ⟨.black sk sv h1 h2, by simp [rootBlackB, bc]⟩

theorem remFix_ok (p : Path K V) (t : Tree K V) :
    ∀ n, CtxOK p (n + 1) → IsRB t n → rootBlackB t = true →
      RBgood (maintainAfterRemove p t) := by
  induction p, t using maintainAfterRemove.induct with
  | case1 t =>
    intro n _ ht htB
    exact ⟨⟨n, ht⟩, htB⟩
  | case2 c k v pp t =>
    intro n hctx _ _
    simp only [CtxOK] at hctx
    exact absurd hctx.1.nil_inv (by simp)
  | case3 c k v pp t sk sv sr =>
    intro n hctx _ _
    simp only [CtxOK] at hctx
    exact absurd hctx.1.red_inv.1.nil_inv (by simp)
  | case4 c k v pp t sk sv sr slc slk slv sll slr h =>
    intro n hctx ht htB
    simp only [CtxOK, bc] at hctx
    obtain ⟨hsib, himp, hroot, hctxg⟩ := hctx
    obtain ⟨hsl, hsr, hslB, hsrB⟩ := hsib.red_inv
    have hc : c = Color.BLACK := by
      cases c
      · exact absurd (himp rfl).2 (by simp [rootBlackB])
      · rfl
    subst hc
    have hslc : slc = Color.BLACK := by
      cases slc
      · simp [rootBlackB] at hslB
      · rfl
    subst hslc
    obtain ⟨m, hm, hsll, hslr⟩ := hsl.black_inv
    have hmn : m = n := by omega
    rw [hmn] at hsll hslr
    have hif := h
    simp only [Bool.and_eq_true] at h
    simp only [maintainAfterRemove]
    rw [if_pos hif]
    exact rebuild_RB pp _ (n + 2) (by simpa [bc] using hctxg)
      (.black sk sv (.black k v ht (.red slk slv hsll hslr h.1 h.2)) hsr)
      (by simp [rootBlackB]) (by simp [rootBlackB])
  | case5 c k v pp t sk sv sr slc slk slv sll slr h =>
    intro n hctx ht htB
    simp only [CtxOK, bc] at hctx
    obtain ⟨hsib, himp, hroot, hctxg⟩ := hctx
    obtain ⟨hsl, hsr, hslB, hsrB⟩ := hsib.red_inv
    have hc : c = Color.BLACK := by
      cases c
      · exact absurd (himp rfl).2 (by simp [rootBlackB])
      · rfl
    subst hc
    have hslc : slc = Color.BLACK := by
      cases slc
      · simp [rootBlackB] at hslB
      · rfl
    subst hslc
    obtain ⟨m, hm, hsll, hslr⟩ := hsl.black_inv
    have hmn : m = n := by omega
    rw [hmn] at hsll hslr
    have hif := h
    simp only [Bool.and_eq_true, not_and] at h
    have hne : ¬(rootBlackB sll = true ∧ rootBlackB slr = true) := by
      intro hx
      exact h hx.1 hx.2
    obtain ⟨h45, h45B⟩ :=
      @remCases45L_ok K V .RED k v _ slk slv _ _ _ ht hsll hslr hne
    simp only [maintainAfterRemove]
    rw [if_neg hif]
    exact rebuild_RB pp _ (n + 2) (by simpa [bc] using hctxg)
      (.black sk sv (by simpa [bc] using h45) hsr)
      (by simp [rootBlackB]) (by simp [rootBlackB])
  | case6 k v pp t sk sv sl sr h =>
    intro n hctx ht htB
    simp only [CtxOK, bc] at hctx
    obtain ⟨hsib, himp, hroot, hctxg⟩ := hctx
    obtain ⟨m, hm, hsl, hsr⟩ := hsib.black_inv
    have hmn : m = n := by omega
    rw [hmn] at hsl hsr
    have hif := h
    simp only [Bool.and_eq_true] at h
    simp only [maintainAfterRemove]
    rw [if_pos hif]
    exact rebuild_RB pp _ (n + 1) (by simpa [bc] using hctxg)
      (.black k v ht (.red sk sv hsl hsr h.1 h.2))
      (by simp [rootBlackB]) (by simp [rootBlackB])
  | case7 k v pp t sk sv sl sr h ih =>
    intro n hctx ht htB
    simp only [CtxOK, bc] at hctx
    obtain ⟨hsib, himp, hroot, hctxg⟩ := hctx
    obtain ⟨m, hm, hsl, hsr⟩ := hsib.black_inv
    have hmn : m = n := by omega
    rw [hmn] at hsl hsr
    have hif := h
    simp only [Bool.and_eq_true] at h
    simp only [maintainAfterRemove]
    rw [if_pos hif]
    exact ih (n + 1) (by simpa [bc] using hctxg)
      (.black k v ht (.red sk sv hsl hsr h.1 h.2)) rfl
  | case8 c k v pp t sk sv sl sr h =>
    intro n hctx ht htB
    simp only [CtxOK, bc] at hctx
    obtain ⟨hsib, himp, hroot, hctxg⟩ := hctx
    obtain ⟨m, hm, hsl, hsr⟩ := hsib.black_inv
    have hmn : m = n := by omega
    rw [hmn] at hsl hsr
    have hif := h
    simp only [Bool.and_eq_true, not_and] at h
    have hne : ¬(rootBlackB sl = true ∧ rootBlackB sr = true) := by
      intro hx
      exact h hx.1 hx.2
    obtain ⟨h45, h45B⟩ :=
      @remCases45L_ok K V c k v _ sk sv _ _ _ ht hsl hsr hne
    simp only [maintainAfterRemove]
    rw [if_neg hif]
    refine rebuild_RB pp _ (n + 1 + bc c) hctxg h45 ?_ ?_
    · intro hpc
      have hcB : c = Color.BLACK := by
        cases c
        · exact absurd (himp rfl).1 (by rw [hpc]; decide)
        · rfl
      rw [h45B, hcB]
      rfl
    · intro hpp
      rw [h45B, hroot hpp]
      rfl
  | case9 c k v pp t =>
    intro n hctx _ _
    simp only [CtxOK] at hctx
    exact absurd hctx.1.nil_inv (by simp)
  | case10 c k v pp t sk sv sl =>
    intro n hctx _ _
    simp only [CtxOK] at hctx
    exact absurd hctx.1.red_inv.2.1.nil_inv (by simp)
  | case11 c k v pp t sk sv sl src srk srv srl srr h =>
    intro n hctx ht htB
    simp only [CtxOK, bc] at hctx
    obtain ⟨hsib, himp, hroot, hctxg⟩ := hctx
    obtain ⟨hsl, hsr, hslB, hsrB⟩ := hsib.red_inv
    have hc : c = Color.BLACK := by
      cases c
      · exact absurd (himp rfl).2 (by simp [rootBlackB])
      · rfl
    subst hc
    have hsrc : src = Color.BLACK := by
      cases src
      · simp [rootBlackB] at hsrB
      · rfl
    subst hsrc
    obtain ⟨m, hm, hsrl, hsrr⟩ := hsr.black_inv
    have hmn : m = n := by omega
    rw [hmn] at hsrl hsrr
    have hif := h
    simp only [Bool.and_eq_true] at h
    simp only [maintainAfterRemove]
    rw [if_pos hif]
    exact rebuild_RB pp _ (n + 2) (by simpa [bc] using hctxg)
      (.black sk sv hsl (.black k v (.red srk srv hsrl hsrr h.1 h.2) ht))
      (by simp [rootBlackB]) (by simp [rootBlackB])
  | case12 c k v pp t sk sv sl src srk srv srl srr h =>
    intro n hctx ht htB
    simp only [CtxOK, bc] at hctx
    obtain ⟨hsib, himp, hroot, hctxg⟩ := hctx
    obtain ⟨hsl, hsr, hslB, hsrB⟩ := hsib.red_inv
    have hc : c = Color.BLACK := by
      cases c
      · exact absurd (himp rfl).2 (by simp [rootBlackB])
      · rfl
    subst hc
    have hsrc : src = Color.BLACK := by
      cases src
      · simp [rootBlackB] at hsrB
      · rfl
    subst hsrc
    obtain ⟨m, hm, hsrl, hsrr⟩ := hsr.black_inv
    have hmn : m = n := by omega
    rw [hmn] at hsrl hsrr
    have hif := h
    simp only [Bool.and_eq_true, not_and] at h
    have hne : ¬(rootBlackB srl = true ∧ rootBlackB srr = true) := by
      intro hx
      exact h hx.1 hx.2
    obtain ⟨h45, h45B⟩ :=
      @remCases45R_ok K V .RED k v _ srk srv _ _ _ ht hsrl hsrr hne
    simp only [maintainAfterRemove]
    rw [if_neg hif]
    exact rebuild_RB pp _ (n + 2) (by simpa [bc] using hctxg)
      (.black sk sv hsl (by simpa [bc] using h45))
      (by simp [rootBlackB]) (by simp [rootBlackB])
  | case13 k v pp t sk sv sl sr h =>
    intro n hctx ht htB
    simp only [CtxOK, bc] at hctx
    obtain ⟨hsib, himp, hroot, hctxg⟩ := hctx
    obtain ⟨m, hm, hsl, hsr⟩ := hsib.black_inv
    have hmn : m = n := by omega
    rw [hmn] at hsl hsr
    have hif := h
    simp only [Bool.and_eq_true] at h
    simp only [maintainAfterRemove]
    rw [if_pos hif]
    exact rebuild_RB pp _ (n + 1) (by simpa [bc] using hctxg)
      (.black k v (.red sk sv hsl hsr h.1 h.2) ht)
      (by simp [rootBlackB]) (by simp [rootBlackB])
  | case14 k v pp t sk sv sl sr h ih =>
    intro n hctx ht htB
    simp only [CtxOK, bc] at hctx
    obtain ⟨hsib, himp, hroot, hctxg⟩ := hctx
    obtain ⟨m, hm, hsl, hsr⟩ := hsib.black_inv
    have hmn : m = n := by omega
    rw [hmn] at hsl hsr
    have hif := h
    simp only [Bool.and_eq_true] at h
    simp only [maintainAfterRemove]
    rw [if_pos hif]
    exact ih (n + 1) (by simpa [bc] using hctxg)
      (.black k v (.red sk sv hsl hsr h.1 h.2) ht) rfl
  | case15 c k v pp t sk sv sl sr h =>
    intro n hctx ht htB
    simp only [CtxOK, bc] at hctx
    obtain ⟨hsib, himp, hroot, hctxg⟩ := hctx
    obtain ⟨m, hm, hsl, hsr⟩ := hsib.black_inv
    have hmn : m = n := by omega
    rw [hmn] at hsl hsr
    have hif := h
    simp only [Bool.and_eq_true, not_and] at h
    have hne : ¬(rootBlackB sl = true ∧ rootBlackB sr = true) := by
      intro hx
      exact h hx.1 hx.2
    obtain ⟨h45, h45B⟩ :=
      @remCases45R_ok K V c k v _ sk sv _ _ _ ht hsl hsr hne
    simp only [maintainAfterRemove]
    rw [if_neg hif]
    refine rebuild_RB pp _ (n + 1 + bc c) hctxg h45 ?_ ?_
    · intro hpc
      have hcB : c = Color.BLACK := by
        cases c
        · exact absurd (himp rfl).1 (by rw [hpc]; decide)
        · rfl
      rw [h45B, hcB]
      rfl
    · intro hpp
      rw [h45B, hroot hpp]
      rfl


/-!
### Removal preserves the color invariants
-/

theorem setMinPayload_rootBlackB (k : K) (v : V) (t : Tree K V) :
    rootBlackB (setMinPayload k v t) = rootBlackB t := by
  cases t with
  | nil => rfl
  | node c k0 v0 l r => cases l <;> simp [setMinPayload, rootBlackB]

theorem setMinPayload_IsRB (k : K) (v : V) :
    ∀ {t : Tree K V} {n : Nat}, IsRB t n → IsRB (setMinPayload k v t) n := by
  intro t
  induction t using setMinPayload.induct (k := k) (v := v) with
  | case1 =>
    intro n h
    simpa [setMinPayload] using h
  | case2 c k0 v0 r =>
    intro n h
    cases h with
    | red _ _ hl hr hbl hbr => exact .red k v hl hr hbl hbr
    | black _ _ hl hr => exact .black k v hl hr
  | case3 c k0 v0 lc lk lv ll lr r ih =>
    intro n h
    cases h with
    | red _ _ hl hr hbl hbr =>
      refine .red k0 v0 (ih hl) hr ?_ hbr
      rw [setMinPayload_rootBlackB]
      exact hbl
    | black _ _ hl hr => exact .black k0 v0 (ih hl) hr

theorem setMinPayload_ne_nil (k : K) (v : V) (c : Color) (k0 : K) (v0 : V)
    (l r : Tree K V) : setMinPayload k v (.node c k0 v0 l r) ≠ .nil := by
  cases l <;> simp [setMinPayload]

theorem zipLeft_shape (t : Tree K V) (p : Path K V) :
    t ≠ .nil → ∃ c k v r, (zipLeft t p).1 = .node c k v .nil r := by
  induction t, p using zipLeft.induct with
  | case1 p => intro h; exact absurd rfl h
  | case2 c k v r p => intro _; exact ⟨c, k, v, r, rfl⟩
  | case3 c k v lc lk lv ll lr r p ih =>
    intro _
    simpa [zipLeft] using ih (by simp)

theorem zipLeft_ctx (t : Tree K V) (p : Path K V) :
    ∀ n, t ≠ .nil → IsRB t n → CtxOK p n →
      (pcol p = .RED → rootBlackB t = true) → (p = .root → rootBlackB t = true) →
      ∃ nf, IsRB (zipLeft t p).1 nf ∧ CtxOK (zipLeft t p).2 nf := by
  induction t, p using zipLeft.induct with
  | case1 p => intro n h; exact absurd rfl h
  | case2 c k v r p =>
    intro n _ ht hctx _ _
    exact ⟨n, ht, hctx⟩
  | case3 c k v lc lk lv ll lr r p ih =>
    intro n _ ht hctx hpc hrt
    have hLne : (Tree.node lc lk lv ll lr) ≠ Tree.nil := by simp
    cases c with
    | RED =>
      obtain ⟨hl, hr, hlB, hrB⟩ := ht.red_inv
      have hpcB : pcol p = Color.BLACK := by
        cases hh : pcol p
        · exact absurd (hpc hh) (by simp [rootBlackB])
        · rfl
      have hctx' : CtxOK (Path.left .RED k v r p) n := by
        refine ⟨hr, fun _ => ⟨hpcB, hrB⟩, fun hp => ?_, ?_⟩
        · exact absurd (hrt hp) (by simp [rootBlackB])
        · simpa [bc] using hctx
      simpa [zipLeft] using
        ih n hLne hl hctx' (fun _ => hlB) (by simp)
    | BLACK =>
      obtain ⟨m, hm, hl, hr⟩ := ht.black_inv
      have hctx' : CtxOK (Path.left .BLACK k v r p) m := by
        refine ⟨hr, by simp, fun _ => rfl, ?_⟩
        rw [hm] at hctx
        simpa [bc] using hctx
      simpa [zipLeft] using
        ih m hLne hl hctx' (by simp [pcol]) (by simp)

theorem removeBase_ok (c : Color) (k : K) (v : V) (l r : Tree K V)
    (p : Path K V) (n : Nat) (hlr : l = .nil ∨ r = .nil)
    (hf : IsRB (.node c k v l r) n) (hctx : CtxOK p n) :
    RBgood (removeBase (.node c k v l r) p) := by
  cases l with
  | nil =>
    cases r with
    | nil =>
      cases c with
      | BLACK =>
        obtain ⟨m, hm, hl, -⟩ := hf.black_inv
        have hm0 : m = 0 := hl.nil_inv
        subst hm0
        rw [hm] at hctx
        simpa [removeBase] using remFix_ok p .nil 0 hctx .nil rfl
      | RED =>
        have hn : n = 0 := by
          cases hf with
          | red _ _ hl _ _ _ => exact hl.nil_inv
        subst hn
        simpa [removeBase] using
          rebuild_RB p .nil 0 hctx .nil (by simp [rootBlackB]) (by simp [rootBlackB])
    | node rc rk rv rl rr =>
      cases c with
      | RED =>
        obtain ⟨hl, hr, hlB, hrB⟩ := hf.red_inv
        have hn : n = 0 := hl.nil_inv
        subst hn
        simpa [removeBase, spliceChild] using
          rebuild_RB p _ 0 hctx hr (fun _ => hrB) (fun _ => hrB)
      | BLACK =>
        obtain ⟨m, hm, hl, hr⟩ := hf.black_inv
        have hm0 : m = 0 := hl.nil_inv
        subst hm0
        have hrB : rootBlackB (Tree.node rc rk rv rl rr) = false := by
          cases hrc : rc
          · simp [rootBlackB]
          · exfalso
            rw [hrc] at hr
            obtain ⟨m2, hm2, -, -⟩ := hr.black_inv
            omega
        have hrc : rc = Color.RED := by
          cases rc
          · rfl
          · simp [rootBlackB] at hrB
        subst hrc
        obtain ⟨hrl, hrr, hrlB, hrrB⟩ := hr.red_inv
        rw [hm] at hctx
        simp only [removeBase, spliceChild, hrB, Bool.false_eq_true, if_false]
        exact rebuild_RB p _ (0 + 1) hctx
          (by simpa [blackenRoot] using IsRB.black rk rv hrl hrr)
          (by simp [blackenRoot, rootBlackB]) (by simp [blackenRoot, rootBlackB])
  | node lc lk lv ll lr =>
    cases r with
    | node => simp at hlr
    | nil =>
      cases c with
      | RED =>
        obtain ⟨hl, hr, hlB, hrB⟩ := hf.red_inv
        have hn : n = 0 := hr.nil_inv
        subst hn
        simpa [removeBase, spliceChild] using
          rebuild_RB p _ 0 hctx hl (fun _ => hlB) (fun _ => hlB)
      | BLACK =>
        obtain ⟨m, hm, hl, hr⟩ := hf.black_inv
        have hm0 : m = 0 := hr.nil_inv
        subst hm0
        have hlB : rootBlackB (Tree.node lc lk lv ll lr) = false := by
          cases hlc : lc
          · simp [rootBlackB]
          · exfalso
            rw [hlc] at hl
            obtain ⟨m2, hm2, -, -⟩ := hl.black_inv
            omega
        have hlc : lc = Color.RED := by
          cases lc
          · rfl
          · simp [rootBlackB] at hlB
        subst hlc
        obtain ⟨hll, hlr2, hllB, hlrB⟩ := hl.red_inv
        rw [hm] at hctx
        simp only [removeBase, spliceChild, hlB, Bool.false_eq_true, if_false]
        exact rebuild_RB p _ (0 + 1) hctx
          (by simpa [blackenRoot] using IsRB.black lk lv hll hlr2)
          (by simp [blackenRoot, rootBlackB]) (by simp [blackenRoot, rootBlackB])


theorem removeAt_ok (f : Tree K V) (p : Path K V) (n : Nat)
    (hf : IsRB f n) (hctx : CtxOK p n) (hne : f ≠ .nil)
    (hpc : pcol p = .RED → rootBlackB f = true)
    (hrt : p = .root → rootBlackB f = true) :
    RBgood (removeAt f p) := by
  cases f with
  | nil => exact absurd rfl hne
  | node c k v l r =>
    cases l with
    | nil =>
      cases r with
      | nil => simpa [removeAt] using removeBase_ok c k v .nil .nil p n (Or.inl rfl) hf hctx
      | node rc rk rv rl rr =>
        simpa [removeAt] using
          removeBase_ok c k v .nil (.node rc rk rv rl rr) p n (Or.inl rfl) hf hctx
    | node lc lk lv ll lr =>
      cases r with
      | nil =>
        simpa [removeAt] using
          removeBase_ok c k v (.node lc lk lv ll lr) .nil p n (Or.inr rfl) hf hctx
      | node rc rk rv rl rr =>
        -- two children: structural swap with the successor, then removeBase
        have hcB : (c = .RED → pcol p = .BLACK ∧
            rootBlackB (Tree.node lc lk lv ll lr) = true) := by
          intro hc
          subst hc
          obtain ⟨-, -, hlB, -⟩ := hf.red_inv
          refine ⟨?_, hlB⟩
          cases hh : pcol p
          · exact absurd (hpc hh) (by simp [rootBlackB])
          · rfl
        have hrootB : p = .root → c = .BLACK := by
          intro hp
          have := hrt hp
          cases c
          · simp [rootBlackB] at this
          · rfl
        -- black heights of the two children
        have main : ∀ nc, IsRB (Tree.node lc lk lv ll lr) nc →
            IsRB (Tree.node rc rk rv rl rr) nc →
            (c = .RED → rootBlackB (Tree.node rc rk rv rl rr) = true) →
            n = nc + bc c →
            RBgood (removeAt (Tree.node c k v (Tree.node lc lk lv ll lr)
              (Tree.node rc rk rv rl rr)) p) := by
          intro nc hl hr hrB hn
          simp only [removeAt]
          have hctxF : CtxOK (Path.right c
              (minKV (Tree.node rc rk rv rl rr) (k, v)).1
              (minKV (Tree.node rc rk rv rl rr) (k, v)).2
              (Tree.node lc lk lv ll lr) p) nc := by
            refine ⟨hl, hcB, hrootB, ?_⟩
            rw [← hn]
            exact hctx
          have hzip := zipLeft_ctx
            (setMinPayload k v (Tree.node rc rk rv rl rr))
            (Path.right c (minKV (Tree.node rc rk rv rl rr) (k, v)).1
              (minKV (Tree.node rc rk rv rl rr) (k, v)).2
              (Tree.node lc lk lv ll lr) p) nc
            (setMinPayload_ne_nil k v rc rk rv rl rr)
            (setMinPayload_IsRB k v hr) hctxF
            (by
              intro hcc
              rw [setMinPayload_rootBlackB]
              simp only [pcol] at hcc
              exact hrB hcc)
            (by simp)
          obtain ⟨nf, hfz, hctxz⟩ := hzip
          obtain ⟨c2, k2, v2, r2, hshape⟩ := zipLeft_shape
            (setMinPayload k v (Tree.node rc rk rv rl rr))
            (Path.right c (minKV (Tree.node rc rk rv rl rr) (k, v)).1
              (minKV (Tree.node rc rk rv rl rr) (k, v)).2
              (Tree.node lc lk lv ll lr) p)
            (setMinPayload_ne_nil k v rc rk rv rl rr)
          rw [hshape] at hfz
          rw [hshape]
          exact removeBase_ok c2 k2 v2 .nil r2 _ nf (Or.inl rfl) hfz hctxz
        cases c with
        | RED =>
          obtain ⟨hl, hr, hlB, hrB⟩ := hf.red_inv
          exact main n hl hr (fun _ => hrB) (by simp [bc])
        | BLACK =>
          obtain ⟨m, hm, hl, hr⟩ := hf.black_inv
          exact main m hl hr (by simp) (by simp [bc, hm])


theorem ctx_step_left (c : Color) (k : K) (v : V) (l r : Tree K V)
    (p : Path K V) (n : Nat) (hf : IsRB (.node c k v l r) n) (hctx : CtxOK p n)
    (hpc : pcol p = .RED → rootBlackB (.node c k v l r : Tree K V) = true)
    (hrt : p = .root → rootBlackB (.node c k v l r : Tree K V) = true) :
    ∃ m, IsRB l m ∧ CtxOK (.left c k v r p) m ∧
      (pcol (.left c k v r p : Path K V) = .RED → rootBlackB l = true) ∧
      ((.left c k v r p : Path K V) = .root → rootBlackB l = true) ∧ n = m + bc c := by
  cases c with
  | RED =>
    obtain ⟨hl, hr, hlB, hrB⟩ := hf.red_inv
    have hpcB : pcol p = Color.BLACK := by
      cases hh : pcol p
      · exact absurd (hpc hh) (by simp [rootBlackB])
      · rfl
    refine ⟨n, hl, ⟨hr, fun _ => ⟨hpcB, hrB⟩, fun hp => ?_, by simpa [bc] using hctx⟩,
      fun _ => hlB, by simp, by simp [bc]⟩
    exact absurd (hrt hp) (by simp [rootBlackB])
  | BLACK =>
    obtain ⟨m, hm, hl, hr⟩ := hf.black_inv
    refine ⟨m, hl, ⟨hr, by simp, fun _ => rfl, ?_⟩, by simp [pcol], by simp, hm⟩
    rw [hm] at hctx
    simpa [bc] using hctx

theorem ctx_step_right (c : Color) (k : K) (v : V) (l r : Tree K V)
    (p : Path K V) (n : Nat) (hf : IsRB (.node c k v l r) n) (hctx : CtxOK p n)
    (hpc : pcol p = .RED → rootBlackB (.node c k v l r : Tree K V) = true)
    (hrt : p = .root → rootBlackB (.node c k v l r : Tree K V) = true) :
    ∃ m, IsRB r m ∧ CtxOK (.right c k v l p) m ∧
      (pcol (.right c k v l p : Path K V) = .RED → rootBlackB r = true) ∧
      ((.right c k v l p : Path K V) = .root → rootBlackB r = true) ∧ n = m + bc c := by
  cases c with
  | RED =>
    obtain ⟨hl, hr, hlB, hrB⟩ := hf.red_inv
    have hpcB : pcol p = Color.BLACK := by
      cases hh : pcol p
      · exact absurd (hpc hh) (by simp [rootBlackB])
      · rfl
    refine ⟨n, hr, ⟨hl, fun _ => ⟨hpcB, hlB⟩, fun hp => ?_, by simpa [bc] using hctx⟩,
      fun _ => hrB, by simp, by simp [bc]⟩
    exact absurd (hrt hp) (by simp [rootBlackB])
  | BLACK =>
    obtain ⟨m, hm, hl, hr⟩ := hf.black_inv
    refine ⟨m, hr, ⟨hl, by simp, fun _ => rfl, ?_⟩, by simp [pcol], by simp, hm⟩
    rw [hm] at hctx
    simpa [bc] using hctx

section OpsProofs

variable [LinearOrder K]

theorem findZ_ctx (k : K) (t : Tree K V) (p : Path K V) :
    ∀ n, IsRB t n → CtxOK p n →
      (pcol p = .RED → rootBlackB t = true) → (p = .root → rootBlackB t = true) →
      ∀ f q, findZ k t p = some (f, q) →
        ∃ m, IsRB f m ∧ CtxOK q m ∧ f ≠ .nil ∧
          (pcol q = .RED → rootBlackB f = true) ∧
          (q = .root → rootBlackB f = true) := by
  induction t, p using findZ.induct (k := k) with
  | case1 p =>
    intro n _ _ _ _ f q h
    simp [findZ] at h
  | case2 c k0 v0 l r p heq =>
    intro n ht hctx hpc hrt f q h
    simp only [findZ, heq, if_true] at h
    obtain ⟨rfl, rfl⟩ := Prod.mk.injEq .. ▸ (Option.some.injEq .. ▸ h)
    exact ⟨n, ht, hctx, by simp, hpc, hrt⟩
  | case3 c k0 v0 l r p heq hlt ih =>
    intro n ht hctx hpc hrt f q h
    simp only [findZ, heq, hlt, if_false, if_true, Bool.false_eq_true] at h
    obtain ⟨m, hl, hctx', hpc', hrt', -⟩ :=
      ctx_step_left c k0 v0 l r p n ht hctx hpc hrt
    exact ih m hl hctx' hpc' hrt' f q h
  | case4 c k0 v0 l r p heq hlt ih =>
    intro n ht hctx hpc hrt f q h
    simp only [findZ, heq, hlt, if_false, Bool.false_eq_true] at h
    obtain ⟨m, hr, hctx', hpc', hrt', -⟩ :=
      ctx_step_right c k0 v0 l r p n ht hctx hpc hrt
    exact ih m hr hctx' hpc' hrt' f q h

theorem insertGo_ctx (k : K) (v : V) (t : Tree K V) (p : Path K V) :
    ∀ n, IsRB t n → CtxOK p n →
      (pcol p = .RED → rootBlackB t = true) → (p = .root → rootBlackB t = true) →
      (insertGo k v t p).2.2 = true →
      (insertGo k v t p).1 = .node .RED k v .nil .nil ∧
        CtxOK (insertGo k v t p).2.1 0 := by
  induction t, p using insertGo.induct (k := k) (v := v) with
  | case1 p =>
    intro n ht hctx _ _ _
    have h0 := ht.nil_inv
    subst h0
    exact ⟨rfl, by simpa [insertGo] using hctx⟩
  | case2 c k0 v0 l r p heq =>
    intro n _ _ _ _ hb
    simp [insertGo, heq] at hb
  | case3 c k0 v0 l r p heq hlt ih =>
    intro n ht hctx hpc hrt hb
    simp only [insertGo, heq, hlt, if_false, if_true, Bool.false_eq_true] at hb ⊢
    obtain ⟨m, hl, hctx', hpc', hrt', -⟩ :=
      ctx_step_left c k0 v0 l r p n ht hctx hpc hrt
    exact ih m hl hctx' hpc' hrt' hb
  | case4 c k0 v0 l r p heq hlt ih =>
    intro n ht hctx hpc hrt hb
    simp only [insertGo, heq, hlt, if_false, Bool.false_eq_true] at hb ⊢
    obtain ⟨m, hr, hctx', hpc', hrt', -⟩ :=
      ctx_step_right c k0 v0 l r p n ht hctx hpc hrt
    exact ih m hr hctx' hpc' hrt' hb

/-- Public insertion keeps the color invariants. -/
theorem mapInsert_RBgood (m : MapS K V) (k : K) (v : V)
    (h : RBgood m.tree) : RBgood (mapInsert m k v).1.tree := by
  obtain ⟨⟨n, ht⟩, htB⟩ := h
  unfold mapInsert
  rcases hgo : insertGo k v m.tree .root with ⟨t', p', b⟩
  cases b with
  | false => exact ⟨⟨n, ht⟩, htB⟩
  | true =>
    have := insertGo_ctx k v m.tree .root n ht trivial
      (by simp [pcol]) (fun _ => htB) (by simp [hgo])
    rw [hgo] at this
    obtain ⟨hshape, hctx⟩ := this
    simp only at hshape hctx
    subst hshape
    exact insFix_ok p' _ 0 hctx (.red k v .nil .nil rfl rfl) rfl

/-- Erasure through a key keeps the color invariants. -/
theorem eraseByKey_RBgood (m : MapS K V) (k : K)
    (h : RBgood m.tree) : RBgood (eraseByKey m k).tree := by
  obtain ⟨⟨n, ht⟩, htB⟩ := h
  unfold eraseByKey
  rcases hfz : findZ k m.tree .root with _ | ⟨f, q⟩
  · exact ⟨⟨n, ht⟩, htB⟩
  · simp only
    by_cases hlen : m.len = 1
    · simp only [hlen, if_true]
      exact ⟨⟨0, .nil⟩, rfl⟩
    · simp only [hlen, if_false]
      obtain ⟨mm, hfm, hctx, hne, hpcq, hrtq⟩ :=
        findZ_ctx k m.tree .root n ht trivial (by simp [pcol]) (fun _ => htB) f q hfz
      exact removeAt_ok f q mm hfm hctx hne hpcq hrtq
end OpsProofs


/-!
### BST order: bounds, sorted traversal, association-list view
-/

/-- Strict lower bound (`none` = unbounded). -/
def lbK [LT K] : Option K → K → Prop
  | none, _ => True
  | some a, k => a < k

/-- Strict upper bound (`none` = unbounded). -/
def ubK [LT K] : K → Option K → Prop
  | _, none => True
  | k, some b => k < b

/-- BST bounds invariant: every key lies strictly between the bounds and
the bounds tighten at each node (invariant 1 of the spec). -/
def Bnd [LT K] : Option K → Option K → Tree K V → Prop
  | _, _, .nil => True
  | lo, hi, .node _ k _ l r => lbK lo k ∧ ubK k hi ∧ Bnd lo (some k) l ∧ Bnd (some k) hi r

/-- Strictly increasing key sequence. -/
def SortedKV [LT K] (xs : List (K × V)) : Prop :=
  List.Pairwise (fun a b => a.1 < b.1) xs

/-- Association-list lookup on the traversal. -/
def lookupL [DecidableEq K] (k : K) : List (K × V) → Option V
  | [] => none
  | x :: xs => if x.1 = k then some x.2 else lookupL k xs

/-- Sorted insertion into the traversal list. -/
def insList [LT K] [DecidableRel ((· < ·) : K → K → Prop)] (k : K) (v : V) :
    List (K × V) → List (K × V)
  | [] => [(k, v)]
  | x :: xs => if k < x.1 then (k, v) :: x :: xs else x :: insList k v xs

section OrderLemmas

variable [LinearOrder K]

theorem Bnd_sorted : ∀ {t : Tree K V} {lo hi : Option K}, Bnd lo hi t →
    SortedKV (inorder t) ∧ ∀ x ∈ inorder t, lbK lo x.1 ∧ ubK x.1 hi := by
  intro t
  induction t with
  | nil => intro lo hi _; exact ⟨List.Pairwise.nil, by simp [inorder]⟩
  | node c k v l r ihl ihr =>
    intro lo hi hb
    obtain ⟨hlb, hub, hbl, hbr⟩ := hb
    obtain ⟨hsl, hml⟩ := ihl hbl
    obtain ⟨hsr, hmr⟩ := ihr hbr
    constructor
    · rw [inorder, SortedKV, List.pairwise_append]
      refine ⟨hsl, List.Pairwise.cons ?_ hsr, ?_⟩
      · intro x hx
        exact (hmr x hx).1
      · intro a ha b hb
        rcases List.mem_cons.mp hb with rfl | hb
        · exact (hml a ha).2
        · exact lt_trans (hml a ha).2 (hmr b hb).1
    · intro x hx
      rw [inorder] at hx
      rcases List.mem_append.mp hx with hx | hx
      · obtain ⟨h1, h2⟩ := hml x hx
        refine ⟨h1, ?_⟩
        cases hi with
        | none => trivial
        | some b => exact lt_trans h2 hub
      · rcases List.mem_cons.mp hx with rfl | hx
        · exact ⟨hlb, hub⟩
        · obtain ⟨h1, h2⟩ := hmr x hx
          refine ⟨?_, h2⟩
          cases lo with
          | none => trivial
          | some a => exact lt_trans hlb h1

theorem Bnd_of_sorted : ∀ {t : Tree K V} {lo hi : Option K},
    SortedKV (inorder t) → (∀ x ∈ inorder t, lbK lo x.1 ∧ ubK x.1 hi) →
    Bnd lo hi t := by
  intro t
  induction t with
  | nil => intro lo hi _ _; trivial
  | node c k v l r ihl ihr =>
    intro lo hi hs hm
    rw [inorder, SortedKV, List.pairwise_append] at hs
    obtain ⟨hsl, hsr', hcross⟩ := hs
    have hkmem : (k, v) ∈ inorder (Tree.node c k v l r) := by
      simp [inorder]
    refine ⟨(hm _ hkmem).1, (hm _ hkmem).2, ihl hsl ?_, ihr (List.Pairwise.sublist (by simp) hsr') ?_⟩
    · intro x hx
      refine ⟨(hm x (by simp [inorder, hx])).1, ?_⟩
      exact hcross x hx (k, v) (by simp)
    · intro x hx
      refine ⟨?_, (hm x (by simp [inorder, hx])).2⟩
      exact List.rel_of_pairwise_cons hsr' hx

end OrderLemmas


section ListLemmas

variable [LinearOrder K]

theorem lookupL_append_none {k : K} {A : List (K × V)} (B : List (K × V))
    (h : lookupL k A = none) : lookupL k (A ++ B) = lookupL k B := by
  induction A with
  | nil => simp
  | cons x xs ih =>
    rw [lookupL] at h
    by_cases hx : x.1 = k
    · simp [hx, lookupL] at h
    · rw [List.cons_append, lookupL, if_neg hx]
      exact ih (by rwa [if_neg hx] at h)

theorem lookupL_append_some {k : K} {A : List (K × V)} {v : V} (B : List (K × V))
    (h : lookupL k A = some v) : lookupL k (A ++ B) = some v := by
  induction A with
  | nil => simp [lookupL] at h
  | cons x xs ih =>
    rw [lookupL] at h
    by_cases hx : x.1 = k
    · rw [if_pos hx] at h
      rw [List.cons_append, lookupL, if_pos hx]
      exact h
    · rw [if_neg hx] at h
      rw [List.cons_append, lookupL, if_neg hx]
      exact ih h

theorem lookupL_eq_none {k : K} {xs : List (K × V)}
    (h : ∀ x ∈ xs, x.1 ≠ k) : lookupL k xs = none := by
  induction xs with
  | nil => rfl
  | cons x xs ih =>
    rw [lookupL, if_neg (h x (by simp))]
    exact ih fun y hy => h y (by simp [hy])

theorem lookupL_none_mem {k : K} {xs : List (K × V)}
    (h : lookupL k xs = none) : ∀ x ∈ xs, x.1 ≠ k := by
  induction xs with
  | nil => simp
  | cons x xs ih =>
    rw [lookupL] at h
    by_cases hx : x.1 = k
    · simp [hx] at h
    · rw [if_neg hx] at h
      intro y hy
      rcases List.mem_cons.mp hy with rfl | hy
      · exact hx
      · exact ih h y hy

theorem insList_append_lt {k k0 : K} (v : V) (v0 : V) (A B : List (K × V))
    (h : k < k0) : insList k v (A ++ (k0, v0) :: B) = insList k v A ++ (k0, v0) :: B := by
  induction A with
  | nil => simp [insList, h]
  | cons x xs ih =>
    by_cases hx : k < x.1
    · simp [insList, hx]
    · simp [insList, hx, ih]

theorem insList_append_gt {k k0 : K} (v : V) (v0 : V) (A B : List (K × V))
    (hA : ∀ x ∈ A, x.1 < k) (h : k0 < k) :
    insList k v (A ++ (k0, v0) :: B) = A ++ (k0, v0) :: insList k v B := by
  induction A with
  | nil => simp [insList, not_lt_of_lt h]
  | cons x xs ih =>
    rw [List.cons_append, insList, if_neg (not_lt_of_lt (hA x (by simp)))]
    rw [List.cons_append, ih fun y hy => hA y (by simp [hy])]

theorem mem_insList {k : K} {v : V} {xs : List (K × V)} {y : K × V}
    (h : y ∈ insList k v xs) : y = (k, v) ∨ y ∈ xs := by
  induction xs with
  | nil => simpa [insList] using h
  | cons x xs ih =>
    rw [insList] at h
    by_cases hx : k < x.1
    · rw [if_pos hx] at h
      rcases List.mem_cons.mp h with rfl | h
      · exact Or.inl rfl
      · exact Or.inr h
    · rw [if_neg hx] at h
      rcases List.mem_cons.mp h with rfl | h
      · exact Or.inr (by simp)
      · rcases ih h with h | h
        · exact Or.inl h
        · exact Or.inr (by simp [h])

theorem SortedKV_insList {k : K} (v : V) {xs : List (K × V)}
    (hs : SortedKV xs) (habs : lookupL k xs = none) :
    SortedKV (insList k v xs) := by
  induction xs with
  | nil => simp [insList, SortedKV]
  | cons x xs ih =>
    rw [SortedKV, List.pairwise_cons] at hs
    rw [lookupL] at habs
    by_cases hx : x.1 = k
    · simp [hx] at habs
    · rw [if_neg hx] at habs
      rw [insList]
      by_cases hlt : k < x.1
      · rw [if_pos hlt]
        refine List.Pairwise.cons ?_ (List.Pairwise.cons hs.1 hs.2)
        intro b hb
        rcases List.mem_cons.mp hb with rfl | hb
        · exact hlt
        · exact lt_trans hlt (hs.1 b hb)
      · rw [if_neg hlt]
        have hxk : x.1 < k := lt_of_le_of_ne (le_of_not_lt hlt) hx
        refine List.Pairwise.cons ?_ (ih hs.2 habs)
        intro b hb
        rcases mem_insList hb with rfl | hb
        · exact hxk
        · exact hs.1 b hb

end ListLemmas


section DescentLists

variable [LinearOrder K]

theorem keys_lt_of_Bnd_hi {t : Tree K V} {lo : Option K} {k : K}
    (hb : Bnd lo (some k) t) : ∀ x ∈ inorder t, x.1 < k := by
  intro x hx
  exact (Bnd_sorted hb).2 x hx |>.2

theorem keys_gt_of_Bnd_lo {t : Tree K V} {hi : Option K} {k : K}
    (hb : Bnd (some k) hi t) : ∀ x ∈ inorder t, k < x.1 := by
  intro x hx
  exact (Bnd_sorted hb).2 x hx |>.1

theorem insertGo_list (k : K) (v : V) (t : Tree K V) (p : Path K V) :
    ∀ lo hi, Bnd lo hi t → lbK lo k → ubK k hi →
      ((insertGo k v t p).2.2 = true →
        inL (insertGo k v t p).2.1 ++ inorder (insertGo k v t p).1 ++
            inR (insertGo k v t p).2.1 =
          inL p ++ insList k v (inorder t) ++ inR p ∧
        lookupL k (inorder t) = none) ∧
      ((insertGo k v t p).2.2 = false →
        (insertGo k v t p).1 ≠ .nil ∧
        ∃ v0, payload (insertGo k v t p).1 = some (k, v0) ∧
          lookupL k (inorder t) = some v0) := by
  induction t, p using insertGo.induct (k := k) (v := v) with
  | case1 p =>
    intro lo hi _ _ _
    refine ⟨fun _ => ⟨?_, rfl⟩, by simp [insertGo]⟩
    simp [insertGo, inorder, insList]
  | case2 c k0 v0 l r p heq =>
    intro lo hi hb _ _
    have hk0 : k0 = k := (eqk_iff k0 k).mp heq
    subst hk0
    refine ⟨by simp [insertGo, heq], fun _ => ?_⟩
    refine ⟨by simp [insertGo, heq], v0, by simp [insertGo, heq, payload], ?_⟩
    rw [inorder, lookupL_append_none _ (lookupL_eq_none ?_), lookupL, if_pos rfl]
    intro x hx
    exact ne_of_lt (keys_lt_of_Bnd_hi hb.2.2.1 x hx)
  | case3 c k0 v0 l r p heq hlt ih =>
    intro lo hi hb hlo hhi
    obtain ⟨hlb, hub, hbl, hbr⟩ := hb
    have ihh := ih lo (some k0) hbl hlo hlt
    have hlook : lookupL k (inorder l) = none → lookupL k
        (inorder (Tree.node c k0 v0 l r)) = none := by
      intro hnl
      rw [inorder, lookupL_append_none _ hnl, lookupL,
        if_neg (by exact fun hcc => absurd hcc (by rw [← hcc] at hlt; exact absurd hlt (lt_irrefl _)))]
      exact lookupL_eq_none fun x hx =>
        ne_of_gt (lt_trans hlt (keys_gt_of_Bnd_lo hbr x hx))
    constructor
    · intro hbtrue
      rw [insertGo] at hbtrue ⊢
      simp only [heq, Bool.false_eq_true, if_false, hlt, if_true] at hbtrue ⊢
      obtain ⟨hlist, hnone⟩ := ihh.1 hbtrue
      constructor
      · rw [hlist]
        rw [inorder, insList_append_lt v v0 _ _ hlt]
        simp [inL, inR, inorder]
      · exact hlook hnone
    · intro hbfalse
      rw [insertGo] at hbfalse ⊢
      simp only [heq, Bool.false_eq_true, if_false, hlt, if_true] at hbfalse ⊢
      obtain ⟨hne2, v1, hpay, hsome⟩ := ihh.2 hbfalse
      exact ⟨hne2, v1, hpay, by
        rw [inorder, lookupL_append_some _ hsome]⟩
  | case4 c k0 v0 l r p heq hlt ih =>
    intro lo hi hb hlo hhi
    obtain ⟨hlb, hub, hbl, hbr⟩ := hb
    have hk0 : k0 < k := by
      rcases lt_trichotomy k k0 with h | h | h
      · exact absurd h hlt
      · exact absurd ((eqk_iff k0 k).mpr h.symm) (by simp [heq])
      · exact h
    have ihh := ih (some k0) hi hbr hk0 hhi
    have hAlt : ∀ x ∈ inorder l, x.1 < k :=
      fun x hx => lt_trans (keys_lt_of_Bnd_hi hbl x hx) hk0
    constructor
    · intro hbtrue
      rw [insertGo] at hbtrue ⊢
      simp only [heq, Bool.false_eq_true, if_false, hlt] at hbtrue ⊢
      obtain ⟨hlist, hnone⟩ := ihh.1 hbtrue
      constructor
      · rw [hlist]
        rw [inorder, insList_append_gt v v0 _ _ hAlt hk0]
        simp [inL, inR, inorder]
      · rw [inorder, lookupL_append_none _ (lookupL_eq_none fun x hx => ne_of_lt (hAlt x hx)),
          lookupL, if_neg (ne_of_lt hk0)]
        exact hnone
    · intro hbfalse
      rw [insertGo] at hbfalse ⊢
      simp only [heq, Bool.false_eq_true, if_false, hlt] at hbfalse ⊢
      obtain ⟨hne2, v1, hpay, hsome⟩ := ihh.2 hbfalse
      refine ⟨hne2, v1, hpay, ?_⟩
      rw [inorder, lookupL_append_none _ (lookupL_eq_none fun x hx => ne_of_lt (hAlt x hx)),
        lookupL, if_neg (ne_of_lt hk0)]
      exact hsome

end DescentLists


section FindLemmas

variable [LinearOrder K]

theorem findT_lookup (k : K) (t : Tree K V) :
    ∀ lo hi, Bnd lo hi t →
      findT k t = (lookupL k (inorder t)).map (fun v0 => (k, v0)) := by
  induction t with
  | nil => intro lo hi _; simp [findT, inorder, lookupL]
  | node c k0 v0 l r ihl ihr =>
    intro lo hi hb
    obtain ⟨hlb, hub, hbl, hbr⟩ := hb
    rw [findT]
    by_cases heq : eqk k k0
    · have hk0 : k = k0 := (eqk_iff k k0).mp heq
      subst hk0
      rw [if_pos heq, inorder,
        lookupL_append_none _ (lookupL_eq_none fun x hx =>
          ne_of_lt (keys_lt_of_Bnd_hi hbl x hx)),
        lookupL, if_pos rfl]
      rfl
    · rw [if_neg (by simpa using heq)]
      have hkne : k ≠ k0 := fun h => heq ((eqk_iff k k0).mpr h)
      by_cases hlt : k < k0
      · rw [if_pos hlt, inorder]
        rw [ihl lo (some k0) hbl]
        rcases hh : lookupL k (inorder l) with _ | v1
        · rw [lookupL_append_none _ hh, lookupL, if_neg (Ne.symm hkne)]
          rw [lookupL_eq_none fun x hx =>
            ne_of_gt (lt_trans hlt (keys_gt_of_Bnd_lo hbr x hx))]
        · rw [lookupL_append_some _ hh]
      · have hk0lt : k0 < k := lt_of_le_of_ne (le_of_not_lt hlt) hkne.symm
        rw [if_neg hlt, inorder]
        rw [ihr (some k0) hi hbr]
        rw [lookupL_append_none _ (lookupL_eq_none fun x hx =>
          ne_of_lt (lt_trans (keys_lt_of_Bnd_hi hbl x hx) hk0lt)),
          lookupL, if_neg (ne_of_lt hk0lt)]

theorem findZ_findT (k : K) (t : Tree K V) (p : Path K V) :
    (findZ k t p).map (fun z => payload z.1) = (findT k t).map some := by
  induction t, p using findZ.induct (k := k) with
  | case1 p => simp [findZ, findT]
  | case2 c k0 v0 l r p heq => simp [findZ, findT, heq, payload]
  | case3 c k0 v0 l r p heq hlt ih => simpa [findZ, findT, heq, hlt] using ih
  | case4 c k0 v0 l r p heq hlt ih => simpa [findZ, findT, heq, hlt] using ih

theorem findZ_some_spec (k : K) (t : Tree K V) (p : Path K V) :
    ∀ lo hi, Bnd lo hi t → ∀ f q, findZ k t p = some (f, q) →
      ∃ c v0 fl fr, f = .node c k v0 fl fr ∧
        lookupL k (inorder t) = some v0 ∧
        inL q ++ inorder f ++ inR q = inL p ++ inorder t ++ inR p := by
  induction t, p using findZ.induct (k := k) with
  | case1 p =>
    intro lo hi _ f q h
    simp [findZ] at h
  | case2 c k0 v0 l r p heq =>
    intro lo hi hb f q h
    have hk0 : k = k0 := (eqk_iff k k0).mp heq
    subst hk0
    rw [findZ, if_pos heq] at h
    obtain ⟨rfl, rfl⟩ := Prod.mk.injEq .. ▸ (Option.some.injEq .. ▸ h)
    refine ⟨c, v0, l, r, rfl, ?_, rfl⟩
    rw [inorder, lookupL_append_none _ (lookupL_eq_none fun x hx =>
      ne_of_lt (keys_lt_of_Bnd_hi hb.2.2.1 x hx)), lookupL, if_pos rfl]
  | case3 c k0 v0 l r p heq hlt ih =>
    intro lo hi hb f q h
    obtain ⟨hlb, hub, hbl, hbr⟩ := hb
    rw [findZ, if_neg (by simpa using heq), if_pos hlt] at h
    obtain ⟨c2, v2, fl, fr, hf, hlook, hioz⟩ := ih lo (some k0) hbl f q h
    refine ⟨c2, v2, fl, fr, hf, ?_, ?_⟩
    · rw [inorder, lookupL_append_some _ hlook]
    · rw [hioz]
      simp [inL, inR, inorder]
  | case4 c k0 v0 l r p heq hlt ih =>
    intro lo hi hb f q h
    obtain ⟨hlb, hub, hbl, hbr⟩ := hb
    have hkne : k ≠ k0 := fun hh => (by simpa [heq] using (eqk_iff k k0).mpr hh)
    have hk0lt : k0 < k := lt_of_le_of_ne (le_of_not_lt hlt) hkne.symm
    rw [findZ, if_neg (by simpa using heq), if_neg hlt] at h
    obtain ⟨c2, v2, fl, fr, hf, hlook, hioz⟩ := ih (some k0) hi hbr f q h
    refine ⟨c2, v2, fl, fr, hf, ?_, ?_⟩
    · rw [inorder, lookupL_append_none _ (lookupL_eq_none fun x hx =>
        ne_of_lt (lt_trans (keys_lt_of_Bnd_hi hbl x hx) hk0lt)),
        lookupL, if_neg (ne_of_lt hk0lt)]
      exact hlook
    · rw [hioz]
      simp [inL, inR, inorder]

theorem findZ_none_iff (k : K) (t : Tree K V) (p : Path K V)
    {lo hi : Option K} (hb : Bnd lo hi t) :
    findZ k t p = none ↔ lookupL k (inorder t) = none := by
  have h := findZ_findT k t p
  rw [findT_lookup k t lo hi hb] at h
  rcases hz : findZ k t p with _ | z <;> rcases hl : lookupL k (inorder t) with _ | v1 <;>
    rw [hz, hl] at h <;> simp_all

end FindLemmas


/-!
### The list-level effect of removal
-/

theorem minKV_setMin_inorder (k : K) (v : V) (t : Tree K V) (d : K × V) :
    t ≠ .nil →
      ∃ rest, inorder t = minKV t d :: rest ∧
        inorder (setMinPayload k v t) = (k, v) :: rest := by
  induction t, d using minKV.induct with
  | case1 d => intro h; exact absurd rfl h
  | case2 c k0 v0 r d =>
    intro _
    exact ⟨inorder r, by simp [inorder, minKV], by simp [setMinPayload, inorder]⟩
  | case3 c k0 v0 lc lk lv ll lr r d ih =>
    intro _
    obtain ⟨rest, h1, h2⟩ := ih (by simp)
    refine ⟨rest ++ (k0, v0) :: inorder r, ?_, ?_⟩
    · rw [inorder, h1, minKV]
      simp
    · rw [setMinPayload, inorder, h2]
      simp

theorem zipLeft_list (t : Tree K V) (p : Path K V) :
    inL (zipLeft t p).2 = inL p ∧
      inorder (zipLeft t p).1 ++ inR (zipLeft t p).2 = inorder t ++ inR p := by
  induction t, p using zipLeft.induct with
  | case1 p => simp [zipLeft]
  | case2 c k v r p => simp [zipLeft]
  | case3 c k v lc lk lv ll lr r p ih =>
    obtain ⟨h1, h2⟩ := ih
    rw [zipLeft]
    refine ⟨by simpa [inL] using h1, ?_⟩
    rw [h2]
    simp [inorder, inR]

theorem removeBase_list (c : Color) (k : K) (v : V) (l r : Tree K V)
    (p : Path K V) (hlr : l = .nil ∨ r = .nil) :
    inorder (removeBase (.node c k v l r) p) =
      inL p ++ inorder l ++ inorder r ++ inR p := by
  cases l with
  | nil =>
    cases r with
    | nil =>
      cases c <;> simp [removeBase, inorder_mAR, inorder_rebuild, inorder]
    | node rc rk rv rl rr =>
      cases c <;>
        simp [removeBase, spliceChild, inorder_mAR, inorder_rebuild, inorder,
          inorder_blackenRoot] <;>
      split_ifs <;>
        simp [inorder_mAR, inorder_rebuild, inorder, inorder_blackenRoot]
  | node lc lk lv ll lr =>
    cases r with
    | node => simp at hlr
    | nil =>
      cases c <;>
        simp [removeBase, spliceChild, inorder_mAR, inorder_rebuild, inorder,
          inorder_blackenRoot] <;>
      split_ifs <;>
        simp [inorder_mAR, inorder_rebuild, inorder, inorder_blackenRoot]

theorem removeAt_list (c : Color) (k : K) (v : V) (l r : Tree K V) (p : Path K V) :
    inorder (removeAt (.node c k v l r) p) =
      inL p ++ inorder l ++ inorder r ++ inR p := by
  cases l with
  | nil =>
    cases r with
    | nil => simpa [removeAt] using removeBase_list c k v .nil .nil p (Or.inl rfl)
    | node rc rk rv rl rr =>
      simpa [removeAt] using
        removeBase_list c k v .nil (.node rc rk rv rl rr) p (Or.inl rfl)
  | node lc lk lv ll lr =>
    cases r with
    | nil =>
      simpa [removeAt] using
        removeBase_list c k v (.node lc lk lv ll lr) .nil p (Or.inr rfl)
    | node rc rk rv rl rr =>
      simp only [removeAt]
      obtain ⟨rest, hmin, hset⟩ :=
        minKV_setMin_inorder k v (.node rc rk rv rl rr) (k, v) (by simp)
      obtain ⟨c2, k2, v2, r2, hshape⟩ := zipLeft_shape
        (setMinPayload k v (Tree.node rc rk rv rl rr))
        (Path.right c (minKV (Tree.node rc rk rv rl rr) (k, v)).1
          (minKV (Tree.node rc rk rv rl rr) (k, v)).2
          (Tree.node lc lk lv ll lr) p)
        (setMinPayload_ne_nil k v rc rk rv rl rr)
      obtain ⟨hinL, hinor⟩ := zipLeft_list
        (setMinPayload k v (Tree.node rc rk rv rl rr))
        (Path.right c (minKV (Tree.node rc rk rv rl rr) (k, v)).1
          (minKV (Tree.node rc rk rv rl rr) (k, v)).2
          (Tree.node lc lk lv ll lr) p)
      rw [hshape]
      rw [removeBase_list c2 k2 v2 .nil r2 _ (Or.inl rfl)]
      rw [hshape, hset] at hinor
      simp only [inR, inorder, List.nil_append, List.cons_append] at hinor
      have htail := (List.cons.injEq .. ▸ hinor).2
      rw [hinL]
      simp only [inL]
      rw [hmin]
      simp [inorder, List.append_assoc, htail]


/-!
### The map facade preserves the full invariant
-/

/-- Full state invariant of a map object: colors, order, and `len` agreeing
with the number of stored elements. -/
def Inv [LT K] (m : MapS K V) : Prop :=
  RBgood m.tree ∧ SortedKV (inorder m.tree) ∧ m.len = (inorder m.tree).length

section FacadeProofs

variable [LinearOrder K]

theorem insList_length (k : K) (v : V) (xs : List (K × V)) :
    (insList k v xs).length = xs.length + 1 := by
  induction xs with
  | nil => rfl
  | cons x xs ih =>
    rw [insList]
    split_ifs <;> simp [ih]

theorem Bnd_top {m : MapS K V} (h : Inv m) : Bnd none none m.tree :=
  Bnd_of_sorted h.2.1 fun x _ => ⟨trivial, trivial⟩

theorem mapInsert_spec (m : MapS K V) (k : K) (v : V) (h : Inv m) :
    Inv (mapInsert m k v).1 ∧
    ((mapInsert m k v).2.2 = true ↔ lookupL k (inorder m.tree) = none) ∧
    ((mapInsert m k v).2.2 = true →
      inorder (mapInsert m k v).1.tree = insList k v (inorder m.tree) ∧
      (mapInsert m k v).1.len = m.len + 1 ∧ (mapInsert m k v).2.1 = (k, v)) ∧
    ((mapInsert m k v).2.2 = false →
      (mapInsert m k v).1 = m ∧
      ∃ v0, (mapInsert m k v).2.1 = (k, v0) ∧
        lookupL k (inorder m.tree) = some v0) := by
  have hbnd : Bnd none none m.tree := Bnd_top h
  have hlists := insertGo_list k v m.tree .root none none hbnd trivial trivial
  have hrb := mapInsert_RBgood m k v h.1
  rcases hgo : insertGo k v m.tree .root with ⟨t', p', b⟩
  rw [hgo] at hlists
  simp only at hlists
  cases b with
  | true =>
    obtain ⟨hlist, hnone⟩ := hlists.1 rfl
    simp only [inL, inR, List.append_nil, List.nil_append] at hlist
    have hmain : inorder (mapInsert m k v).1.tree = insList k v (inorder m.tree) ∧
        (mapInsert m k v).1.len = m.len + 1 ∧ (mapInsert m k v).2.1 = (k, v) := by
      unfold mapInsert
      rw [hgo]
      exact ⟨by rw [inorder_mAI]; exact hlist, rfl, rfl⟩
    have hb : (mapInsert m k v).2.2 = true := by
      unfold mapInsert
      rw [hgo]
    refine ⟨⟨hrb, ?_, ?_⟩, by simp [hb, hnone], fun _ => hmain, by simp [hb]⟩
    · rw [hmain.1]
      exact SortedKV_insList v h.2.1 hnone
    · rw [hmain.1, insList_length, hmain.2.1, h.2.2]
  | false =>
    obtain ⟨hne, v0, hpay, hsome⟩ := hlists.2 rfl
    have hb : (mapInsert m k v).2.2 = false := by
      unfold mapInsert
      rw [hgo]
    have hm : (mapInsert m k v).1 = m := by
      unfold mapInsert
      rw [hgo]
    have hp : (mapInsert m k v).2.1 = (k, v0) := by
      unfold mapInsert
      rw [hgo]
      simp [hpay]
    refine ⟨by rw [hm]; exact h, by simp [hb, hsome], by simp [hb], fun _ => ⟨hm, v0, hp, hsome⟩⟩

theorem eraseByKey_spec (m : MapS K V) (k : K) (h : Inv m) :
    Inv (eraseByKey m k) ∧
    (lookupL k (inorder m.tree) = none → eraseByKey m k = m) ∧
    (∀ v0, lookupL k (inorder m.tree) = some v0 →
      ∃ A B, inorder m.tree = A ++ (k, v0) :: B ∧
        inorder (eraseByKey m k).tree = A ++ B ∧
        (eraseByKey m k).len = m.len - 1 ∧
        (∀ x ∈ A, x.1 ≠ k) ∧ (∀ x ∈ B, x.1 ≠ k)) := by
  have hbnd : Bnd none none m.tree := Bnd_top h
  have hrb := eraseByKey_RBgood m k h.1
  rcases hfz : findZ k m.tree .root with _ | ⟨f, q⟩
  · have hnone : lookupL k (inorder m.tree) = none :=
      (findZ_none_iff k m.tree .root hbnd).mp hfz
    have hm : eraseByKey m k = m := by
      unfold eraseByKey
      rw [hfz]
    refine ⟨by rw [hm]; exact h, fun _ => hm, fun v0 hv0 => ?_⟩
    rw [hnone] at hv0
    exact absurd hv0 (by simp)
  · obtain ⟨c2, v0, fl, fr, hf, hlook, hioz⟩ :=
      findZ_some_spec k m.tree .root none none hbnd f q hfz
    simp only [inL, inR, List.append_nil, List.nil_append] at hioz
    have htree : inorder (eraseByKey m k).tree =
        inL q ++ inorder fl ++ inorder fr ++ inR q ∧
        (eraseByKey m k).len = m.len - 1 := by
      unfold eraseByKey
      rw [hfz]
      simp only
      by_cases hlen : m.len = 1
      · rw [if_pos hlen]
        refine ⟨?_, trivial⟩
        -- a single element: the surroundings are all empty
        have hlenlist : (inorder m.tree).length = 1 := by rw [← h.2.2, hlen]
        rw [← hioz, hf, inorder] at hlenlist
        simp only [List.length_append, List.length_cons] at hlenlist
        have h1 : (inL q).length = 0 := by omega
        have h2 : (inorder fl).length = 0 := by omega
        have h3 : (inorder fr).length = 0 := by omega
        have h4 : (inR q).length = 0 := by omega
        simp only [List.length_eq_zero] at h1 h2 h3 h4
        simp [h1, h2, h3, h4, inorder]
      · rw [if_neg hlen]
        rw [hf]
        exact ⟨removeAt_list c2 k v0 fl fr q, trivial⟩
    rw [hf, inorder] at hioz
    have hold : inorder m.tree = (inL q ++ inorder fl) ++ (k, v0) ::
        (inorder fr ++ inR q) := by
      rw [← hioz]
      simp
    have hnew : inorder (eraseByKey m k).tree =
        (inL q ++ inorder fl) ++ (inorder fr ++ inR q) := by
      rw [htree.1]
      simp
    have hsub : SortedKV (inorder (eraseByKey m k).tree) := by
      rw [hnew]
      refine List.Pairwise.sublist ?_ (hold ▸ h.2.1)
      exact List.Sublist.append_left (List.sublist_cons_self _ _) _
    have hsorted := hold ▸ h.2.1
    rw [SortedKV, List.pairwise_append] at hsorted
    refine ⟨⟨hrb, hsub, ?_⟩, fun hn => ?_, fun v1 hv1 => ?_⟩
    · rw [htree.2, hnew, h.2.2, hold]
      simp only [List.length_append, List.length_cons]
      omega
    · rw [hlook] at hn
      exact absurd hn (by simp)
    · rw [hlook] at hv1
      obtain rfl : v0 = v1 := by simpa using hv1
      refine ⟨inL q ++ inorder fl, inorder fr ++ inR q,
        hold, hnew, htree.2, ?_, ?_⟩
      · intro x hx
        exact ne_of_lt (hsorted.2.2 x hx (k, v0) (by simp))
      · intro x hx
        have := List.rel_of_pairwise_cons hsorted.2.1 hx
        exact ne_of_gt this

end FacadeProofs


/-!
### Pointer-level view: parent/child links are mutually consistent

`encode` lays the tree out as address/record pairs exactly as the nodes are
wired in memory: each record carries its child pointers and its parent
back-reference (`none` for the root, whose parent is the sentinel).
`linksOK` is invariant 5: if A is B's child then B is A's parent and
conversely.
-/

/-- One `RBTNode` as laid out in memory: color, payload, the two child
pointers and the parent back-reference (addresses are root paths,
`false` = left). -/
structure LNode (K V : Type) where
  color : Color
  key : K
  val : V
  left : Option (List Bool)
  right : Option (List Bool)
  parent : Option (List Bool)

/-- The child pointer for child subtree `t` located at address `a`
(null when the child is missing). -/
def childPtr (t : Tree K V) (a : List Bool) : Option (List Bool) :=
  match t with
  | .nil => none
  | .node _ _ _ _ _ => some a

/-- Address map of the whole node graph reachable from `t`, whose own
address is `a` and whose parent pointer is `par`. -/
def encode : Tree K V → Option (List Bool) → List Bool → List (List Bool × LNode K V)
  | .nil, _, _ => []
  | .node c k v l r, par, a =>
    (a, ⟨c, k, v, childPtr l (a ++ [false]), childPtr r (a ++ [true]), par⟩)
      :: (encode l (some a) (a ++ [false]) ++ encode r (some a) (a ++ [true]))

/-- First-match lookup by address. -/
def lookupA : List (List Bool × LNode K V) → List Bool → Option (LNode K V)
  | [], _ => none
  | x :: xs, a => if x.1 = a then some x.2 else lookupA xs a

/-- Both directions of invariant 5 over the pointer-level view. -/
def linksOK (xs : List (List Bool × LNode K V)) : Prop :=
  ∀ a n, lookupA xs a = some n →
    ((∀ ca, n.left = some ca →
        ∃ cn, lookupA xs ca = some cn ∧ cn.parent = some a) ∧
     (∀ ca, n.right = some ca →
        ∃ cn, lookupA xs ca = some cn ∧ cn.parent = some a)) ∧
    (∀ pa, n.parent = some pa →
      ∃ pn, lookupA xs pa = some pn ∧ (pn.left = some a ∨ pn.right = some a))

theorem lookupA_append (xs ys : List (List Bool × LNode K V)) (a : List Bool) :
    lookupA (xs ++ ys) a =
      match lookupA xs a with
      | some n => some n
      | none => lookupA ys a := by
  induction xs with
  | nil => simp [lookupA]
  | cons x xs ih =>
    by_cases hx : x.1 = a
    · simp [lookupA, hx]
    · simp [lookupA, hx, ih]

theorem encode_addr (t : Tree K V) :
    ∀ par a b n, lookupA (encode t par a) b = some n → ∃ s, b = a ++ s := by
  induction t with
  | nil => intro par a b n h; simp [encode, lookupA] at h
  | node c k v l r ihl ihr =>
    intro par a b n h
    rw [encode] at h
    rw [lookupA] at h
    by_cases hb : a = b
    · exact ⟨[], by simp [hb]⟩
    · rw [if_neg hb, lookupA_append] at h
      rcases hfl : lookupA (encode l (some a) (a ++ [false])) b with _ | n1 <;>
        rw [hfl] at h
      · obtain ⟨s, hs⟩ := ihr (some a) (a ++ [true]) b n h
        exact ⟨true :: s, by simp [hs]⟩
      · obtain ⟨s, hs⟩ := ihl (some a) (a ++ [false]) b n1 hfl
        exact ⟨false :: s, by simp [hs]⟩

theorem encode_root_lookup (c : Color) (k : K) (v : V) (l r : Tree K V)
    (par : Option (List Bool)) (a : List Bool) :
    lookupA (encode (.node c k v l r) par a) a = some
      ⟨c, k, v, childPtr l (a ++ [false]), childPtr r (a ++ [true]), par⟩ := by
  rw [encode, lookupA, if_pos rfl]

theorem lookupA_outside (t : Tree K V) (par : Option (List Bool)) (a b : List Bool)
    (h : ∀ s, b ≠ a ++ s) : lookupA (encode t par a) b = none := by
  rcases hl : lookupA (encode t par a) b with _ | n
  · rfl
  · obtain ⟨s, hs⟩ := encode_addr t par a b n hl
    exact absurd hs (h s)

theorem ne_append_left (a : List Bool) (x : Bool) (s : List Bool) :
    a ++ x :: s ≠ a := by
  intro h
  have := congrArg List.length h
  simp at this

theorem append_branch_ne (a : List Bool) (x y : Bool) (s1 s2 : List Bool)
    (hxy : x ≠ y) : a ++ x :: s1 ≠ a ++ y :: s2 := by
  intro h
  have := List.append_cancel_left h
  simp at this
  exact hxy this.1


theorem encode_main (t : Tree K V) :
    ∀ par a b n, lookupA (encode t par a) b = some n →
      ((∀ ca, n.left = some ca →
          ∃ cn, lookupA (encode t par a) ca = some cn ∧ cn.parent = some b) ∧
       (∀ ca, n.right = some ca →
          ∃ cn, lookupA (encode t par a) ca = some cn ∧ cn.parent = some b)) ∧
      (b = a → n.parent = par) ∧
      (b ≠ a → ∀ pa, n.parent = some pa →
        ∃ pn, lookupA (encode t par a) pa = some pn ∧
          (pn.left = some b ∨ pn.right = some b)) := by
  induction t with
  | nil => intro par a b n h; simp [encode, lookupA] at h
  | node c k v l r ihl ihr =>
    intro par a b n h
    have hxs : encode (Tree.node c k v l r) par a =
        (a, ⟨c, k, v, childPtr l (a ++ [false]), childPtr r (a ++ [true]), par⟩)
          :: (encode l (some a) (a ++ [false]) ++ encode r (some a) (a ++ [true])) := rfl
    have hliftL : ∀ ta tn, lookupA (encode l (some a) (a ++ [false])) ta = some tn →
        lookupA (encode (Tree.node c k v l r) par a) ta = some tn := by
      intro ta tn hta
      obtain ⟨s, hs⟩ := encode_addr l (some a) (a ++ [false]) ta tn hta
      rw [hxs, lookupA, if_neg ?_, lookupA_append, hta]
      subst hs
      intro hcon
      exact ne_append_left a false s (by simpa using hcon.symm)
    have hliftR : ∀ ta tn, lookupA (encode r (some a) (a ++ [true])) ta = some tn →
        lookupA (encode (Tree.node c k v l r) par a) ta = some tn := by
      intro ta tn hta
      obtain ⟨s, hs⟩ := encode_addr r (some a) (a ++ [true]) ta tn hta
      have hnotL : lookupA (encode l (some a) (a ++ [false])) ta = none := by
        refine lookupA_outside l (some a) (a ++ [false]) ta fun s2 hcon => ?_
        rw [hs] at hcon
        simp only [List.append_assoc] at hcon
        exact append_branch_ne a true false s s2 (by simp) (by simpa using hcon)
      rw [hxs, lookupA, if_neg ?_, lookupA_append, hnotL, hta]
      subst hs
      intro hcon
      exact ne_append_left a true s (by simpa using hcon.symm)
    by_cases hb : a = b
    · subst hb
      rw [hxs, lookupA, if_pos rfl] at h
      obtain rfl : (⟨c, k, v, childPtr l (a ++ [false]), childPtr r (a ++ [true]),
          par⟩ : LNode K V) = n := by simpa using h
      refine ⟨⟨?_, ?_⟩, fun _ => rfl, fun hne => absurd rfl hne⟩
      · intro ca hca
        cases l with
        | nil => simp [childPtr] at hca
        | node lc lk lv ll lr =>
          simp only [childPtr] at hca
          obtain rfl : a ++ [false] = ca := by simpa using hca
          exact ⟨_, hliftL _ _ (encode_root_lookup lc lk lv ll lr (some a) (a ++ [false])), rfl⟩
      · intro ca hca
        cases r with
        | nil => simp [childPtr] at hca
        | node rc rk rv rl rr =>
          simp only [childPtr] at hca
          obtain rfl : a ++ [true] = ca := by simpa using hca
          exact ⟨_, hliftR _ _ (encode_root_lookup rc rk rv rl rr (some a) (a ++ [true])), rfl⟩
    · rw [hxs, lookupA, if_neg hb, lookupA_append] at h
      rcases hfl : lookupA (encode l (some a) (a ++ [false])) b with _ | n1
      · rw [hfl] at h
        -- found in the right subtree
        obtain ⟨⟨hcl, hcr⟩, hrt, hpar⟩ := ihr (some a) (a ++ [true]) b n h
        refine ⟨⟨?_, ?_⟩, fun hcon => absurd hcon.symm hb, fun _ => ?_⟩
        · intro ca hca
          obtain ⟨cn, hcn, hcnp⟩ := hcl ca hca
          exact ⟨cn, hliftR _ _ hcn, hcnp⟩
        · intro ca hca
          obtain ⟨cn, hcn, hcnp⟩ := hcr ca hca
          exact ⟨cn, hliftR _ _ hcn, hcnp⟩
        · intro pa hpa
          by_cases hroot : b = a ++ [true]
          · subst hroot
            have hpn : n.parent = some a := hrt rfl
            rw [hpn] at hpa
            obtain rfl : a = pa := by simpa using hpa
            cases r with
            | nil => simp [encode, lookupA] at h
            | node rc rk rv rl rr =>
              refine ⟨⟨c, k, v, childPtr l (a ++ [false]),
                  childPtr (Tree.node rc rk rv rl rr) (a ++ [true]), par⟩,
                ?_, Or.inr ?_⟩
              · rw [hxs, lookupA, if_pos rfl]
              · simp [childPtr]
          · obtain ⟨pn, hpn, hpd⟩ := hpar hroot pa hpa
            exact ⟨pn, hliftR _ _ hpn, hpd⟩
      · rw [hfl] at h
        have heqn : n1 = n := by simpa using h
        rw [heqn] at hfl
        obtain ⟨⟨hcl, hcr⟩, hrt, hpar⟩ := ihl (some a) (a ++ [false]) b n hfl
        refine ⟨⟨?_, ?_⟩, fun hcon => absurd hcon.symm hb, fun _ => ?_⟩
        · intro ca hca
          obtain ⟨cn, hcn, hcnp⟩ := hcl ca hca
          exact ⟨cn, hliftL _ _ hcn, hcnp⟩
        · intro ca hca
          obtain ⟨cn, hcn, hcnp⟩ := hcr ca hca
          exact ⟨cn, hliftL _ _ hcn, hcnp⟩
        · intro pa hpa
          by_cases hroot : b = a ++ [false]
          · subst hroot
            have hpn : n.parent = some a := hrt rfl
            rw [hpn] at hpa
            obtain rfl : a = pa := by simpa using hpa
            cases l with
            | nil => simp [encode, lookupA] at hfl
            | node lc lk lv ll lr =>
              refine ⟨⟨c, k, v, childPtr (Tree.node lc lk lv ll lr) (a ++ [false]),
                  childPtr r (a ++ [true]), par⟩,
                ?_, Or.inl ?_⟩
              · rw [hxs, lookupA, if_pos rfl]
              · simp [childPtr]
          · obtain ⟨pn, hpn, hpd⟩ := hpar hroot pa hpa
            exact ⟨pn, hliftL _ _ hpn, hpd⟩

/-- Invariant 5 holds for the pointer-level view of every tree: the links
maintained by the node constructors, `maintainRelationship` and the
rotation/splice code are always mutually consistent. -/
theorem linksOK_encode (t : Tree K V) : linksOK (encode t none []) := by
  intro a n h
  obtain ⟨hch, hrt, hpar⟩ := encode_main t none [] a n h
  refine ⟨hch, ?_⟩
  by_cases ha : a = []
  · intro pa hpa
    rw [hrt ha] at hpa
    exact absurd hpa (by simp)
  · exact hpar ha


section RunOps

variable [LinearOrder K]

theorem Inv_empty : Inv (emptyMap : MapS K V) :=
  ⟨⟨⟨0, .nil⟩, rfl⟩, List.Pairwise.nil, rfl⟩

theorem Inv_applyOp (m : MapS K V) (op : Op K V) (h : Inv m) :
    Inv (applyOp m op) := by
  cases op with
  | ins k v => exact (mapInsert_spec m k v h).1
  | del k => exact (eraseByKey_spec m k h).1

theorem Inv_foldl (ops : List (Op K V)) :
    ∀ m : MapS K V, Inv m → Inv (ops.foldl applyOp m) := by
  induction ops with
  | nil => intro m h; exact h
  | cons op ops ih =>
    intro m h
    exact ih (applyOp m op) (Inv_applyOp m op h)

theorem Inv_runOps (ops : List (Op K V)) : Inv (runOps ops) :=
  Inv_foldl ops emptyMap Inv_empty

/-- C1: after every sequence of public insert and erase operations starting
from an empty map, the tree satisfies all five red-black structural
invariants: the in-order key sequence is strictly increasing under the
comparator, no RED node has a RED child, the black height is uniform on all
root-to-missing-child paths, the root (the sentinel's left child) is BLACK
or the tree is empty, and the parent/child links of the pointer-level view
are mutually consistent. -/
theorem claim_C1_invariants (ops : List (Op K V)) :
    List.Pairwise (· < ·) (keys (runOps ops).tree) ∧
    noRedRed (runOps ops).tree = true ∧
    (bhN (runOps ops).tree).isSome = true ∧
    rootBlackB (runOps ops).tree = true ∧
    linksOK (encode (runOps ops).tree none []) := by
  obtain ⟨⟨⟨n, hrb⟩, hrt⟩, hs, -⟩ := Inv_runOps ops
  obtain ⟨hnr, hbh⟩ := hrb.to_checks
  refine ⟨?_, hnr, by simp [hbh], hrt, linksOK_encode _⟩
  rw [keys, List.pairwise_map]
  exact hs

end RunOps


/-!
### Iterator stepping: climbing lemmas
-/

theorem zipRight_of_upRights (p : Path K V) :
    ∀ t : Tree K V, t ≠ .nil →
      zipRight (upRights t p).1 (upRights t p).2 = zipRight t p := by
  induction p with
  | root => intro t _; rfl
  | left c k v sib pp ih => intro t _; rfl
  | right c k v sib pp ih =>
    intro t ht
    rcases t with _ | ⟨c2, k2, v2, l2, r2⟩
    · exact absurd rfl ht
    · rw [upRights]
      rw [ih (.node c k v sib (.node c2 k2 v2 l2 r2)) (by simp)]
      rw [zipRight]

theorem zipLeft_of_upLefts (p : Path K V) :
    ∀ t : Tree K V, t ≠ .nil →
      zipLeft (upLefts t p).1 (upLefts t p).2 = zipLeft t p := by
  induction p with
  | root => intro t _; rfl
  | right c k v sib pp ih => intro t _; rfl
  | left c k v sib pp ih =>
    intro t ht
    rcases t with _ | ⟨c2, k2, v2, l2, r2⟩
    · exact absurd rfl ht
    · rw [upLefts]
      rw [ih (.node c k v (.node c2 k2 v2 l2 r2) sib) (by simp)]
      rw [zipLeft]

theorem upRights_of_zipRight (t : Tree K V) (p : Path K V) :
    upRights (zipRight t p).1 (zipRight t p).2 = upRights t p := by
  induction t, p using zipRight.induct with
  | case1 p => rfl
  | case2 c k v l p => rfl
  | case3 c k v l rc rk rv rl rr p ih =>
    rw [zipRight]
    rw [ih]
    rw [upRights]

theorem upLefts_of_zipLeft (t : Tree K V) (p : Path K V) :
    upLefts (zipLeft t p).1 (zipLeft t p).2 = upLefts t p := by
  induction t, p using zipLeft.induct with
  | case1 p => rfl
  | case2 c k v r p => rfl
  | case3 c k v lc lk lv ll lr r p ih =>
    rw [zipLeft]
    rw [ih]
    rw [upLefts]

theorem upRights_rebuild (p : Path K V) :
    ∀ t : Tree K V, rebuild (upRights t p).2 (upRights t p).1 = rebuild p t := by
  induction p with
  | root => intro t; rfl
  | left c k v sib pp ih => intro t; rfl
  | right c k v sib pp ih =>
    intro t
    rw [upRights, ih, rebuild]

theorem upLefts_rebuild (p : Path K V) :
    ∀ t : Tree K V, rebuild (upLefts t p).2 (upLefts t p).1 = rebuild p t := by
  induction p with
  | root => intro t; rfl
  | right c k v sib pp ih => intro t; rfl
  | left c k v sib pp ih =>
    intro t
    rw [upLefts, ih, rebuild]

theorem upRights_node (p : Path K V) :
    ∀ t : Tree K V, t ≠ .nil → (upRights t p).1 ≠ .nil := by
  induction p with
  | root => intro t h; exact h
  | left c k v sib pp ih => intro t h; exact h
  | right c k v sib pp ih =>
    intro t h
    rcases t with _ | ⟨c2, k2, v2, l2, r2⟩
    · exact absurd rfl h
    · rw [upRights]
      exact ih _ (by simp)

theorem upLefts_node (p : Path K V) :
    ∀ t : Tree K V, t ≠ .nil → (upLefts t p).1 ≠ .nil := by
  induction p with
  | root => intro t h; exact h
  | right c k v sib pp ih => intro t h; exact h
  | left c k v sib pp ih =>
    intro t h
    rcases t with _ | ⟨c2, k2, v2, l2, r2⟩
    · exact absurd rfl h
    · rw [upLefts]
      exact ih _ (by simp)

theorem zipRight_shape (t : Tree K V) (p : Path K V) :
    t ≠ .nil → ∃ c k v l, (zipRight t p).1 = .node c k v l .nil := by
  induction t, p using zipRight.induct with
  | case1 p => intro h; exact absurd rfl h
  | case2 c k v l p => intro _; exact ⟨c, k, v, l, rfl⟩
  | case3 c k v l rc rk rv rl rr p ih =>
    intro _
    rw [zipRight]
    exact ih (by simp)

theorem zipLeft_stop (t : Tree K V) (p : Path K V) :
    (∀ lc lk lv ll lr r c k v, t ≠ .node c k v (.node lc lk lv ll lr) r) →
      zipLeft t p = (t, p) := by
  cases t with
  | nil => intro _; rfl
  | node c k v l r =>
    intro h
    cases l with
    | nil => rfl
    | node lc lk lv ll lr => exact absurd rfl (h lc lk lv ll lr r c k v)

theorem rebuild_ne_nil (p : Path K V) :
    ∀ t : Tree K V, t ≠ .nil → rebuild p t ≠ .nil := by
  induction p with
  | root => intro t h; exact h
  | left c k v sib pp ih => intro t _; exact ih _ (by simp)
  | right c k v sib pp ih => intro t _; exact ih _ (by simp)

/-- Number of right-child steps recorded in a path. -/
def cntR : Path K V → Nat
  | .root => 0
  | .left _ _ _ _ p => cntR p
  | .right _ _ _ _ p => cntR p + 1

theorem zipLeft_cntR (t : Tree K V) (p : Path K V) :
    cntR (zipLeft t p).2 = cntR p := by
  induction t, p using zipLeft.induct with
  | case1 p => rfl
  | case2 c k v r p => rfl
  | case3 c k v lc lk lv ll lr r p ih =>
    rw [zipLeft]
    rw [ih]
    rfl


section IterEqs

variable [DecidableEq K] [DecidableEq V]

theorem itDec_noLeft (t : Tree K V) (c2 : Color) (k2 : K) (v2 : V)
    (r2 : Tree K V) (q : Path K V)
    (hneq : (some (Tree.node c2 k2 v2 .nil r2, q) : It K V) ≠ itBegin t) :
    itDec t (some (Tree.node c2 k2 v2 .nil r2, q)) =
      (match upLefts (Tree.node c2 k2 v2 .nil r2) q with
       | (g, .right pc pk pv sib pp) => some (some (.node pc pk pv sib g, pp))
       | (g, _) => some none) := by
  rw [itDec.eq_def, if_neg hneq]

theorem itDec_sentinel (t : Tree K V)
    (hneq : (none : It K V) ≠ itBegin t) :
    itDec t none = some (some (zipRight t .root)) := by
  rw [itDec.eq_def, if_neg hneq]

theorem itDec_leftChild (t : Tree K V) (c : Color) (k : K) (v : V)
    (lc : Color) (lk : K) (lv : V) (ll lr r : Tree K V) (p : Path K V)
    (hneq : (some (Tree.node c k v (.node lc lk lv ll lr) r, p) : It K V) ≠ itBegin t) :
    itDec t (some (Tree.node c k v (.node lc lk lv ll lr) r, p)) =
      some (some (zipRight (.node lc lk lv ll lr) (.left c k v r p))) := by
  rw [itDec.eq_def, if_neg hneq]

theorem itInc_noRight (c : Color) (k : K) (v : V) (l : Tree K V) (p : Path K V) :
    itInc (some (Tree.node c k v l .nil, p)) =
      (match upRights (Tree.node c k v l .nil) p with
       | (g, .left pc pk pv sib pp) => some (some (.node pc pk pv g sib, pp))
       | (g, _) => some none) := rfl

end IterEqs

theorem upRights_not_right (p : Path K V) :
    ∀ (t : Tree K V) (pc : Color) (pk : K) (pv : V) (sib : Tree K V) (pp : Path K V),
      (upRights t p).2 ≠ .right pc pk pv sib pp := by
  induction p with
  | root => intro t pc pk pv sib pp h; simp [upRights] at h
  | left c k v sib2 pp2 ih => intro t pc pk pv sib pp h; simp [upRights] at h
  | right c k v sib2 pp2 ih =>
    intro t pc pk pv sib pp
    rw [upRights]
    exact ih _ pc pk pv sib pp

theorem upLefts_not_left (p : Path K V) :
    ∀ (t : Tree K V) (pc : Color) (pk : K) (pv : V) (sib : Tree K V) (pp : Path K V),
      (upLefts t p).2 ≠ .left pc pk pv sib pp := by
  induction p with
  | root => intro t pc pk pv sib pp h; simp [upLefts] at h
  | right c k v sib2 pp2 ih => intro t pc pk pv sib pp h; simp [upLefts] at h
  | left c k v sib2 pp2 ih =>
    intro t pc pk pv sib pp
    rw [upLefts]
    exact ih _ pc pk pv sib pp

section IterInverse

variable [DecidableEq K] [DecidableEq V]

theorem itInc_itDec (t f : Tree K V) (p : Path K V)
    (hre : rebuild p f = t) (hf : f ≠ .nil) :
    ∃ it', itInc (some (f, p)) = some it' ∧ itDec t it' = some (some (f, p)) := by
  have htne : t ≠ .nil := hre ▸ rebuild_ne_nil p f hf
  rcases f with _ | ⟨c, k, v, l, r⟩
  · exact absurd rfl hf
  rcases r with _ | ⟨rc, rk, rv, rl, rr⟩
  · -- no right child: climb parent links
    rcases hq : upRights (Tree.node c k v l .nil) p with ⟨g, q2⟩
    have hgne : g ≠ Tree.nil := by
      have := upRights_node p (Tree.node c k v l .nil) (by simp)
      rw [hq] at this
      exact this
    have hzr := zipRight_of_upRights p (Tree.node c k v l .nil) (by simp)
    rw [hq] at hzr
    simp only at hzr
    rw [zipRight] at hzr
    have hrbq : rebuild q2 g = t := by
      have := upRights_rebuild p (Tree.node c k v l .nil)
      rw [hq] at this
      simp only at this
      rw [this, hre]
    rcases q2 with _ | ⟨pc2, pk2, pv2, sib2, pp2⟩ | ⟨pc2, pk2, pv2, sib2, pp2⟩
    · -- reached the sentinel: the successor is end()
      have hgt : g = t := hrbq
      refine ⟨none, by rw [itInc_noRight, hq], ?_⟩
      rw [itDec_sentinel t ?_]
      · rw [← hgt, hzr]
      · rcases t with _ | ⟨tc, tk, tv, tl, tr⟩
        · exact absurd rfl htne
        · rw [itBegin]
          simp
    · -- arrived via a left-child step
      refine ⟨some (Tree.node pc2 pk2 pv2 g sib2, pp2), by rw [itInc_noRight, hq], ?_⟩
      rcases g with _ | ⟨gc, gk, gv, gl, gr⟩
      · exact absurd rfl hgne
      rw [itDec_leftChild t pc2 pk2 pv2 gc gk gv gl gr sib2 pp2 ?_]
      · rw [hzr]
      · rcases t with _ | ⟨tc, tk, tv, tl, tr⟩
        · exact absurd rfl htne
        rw [itBegin]
        obtain ⟨c3, k3, v3, r3, hshape⟩ :=
          zipLeft_shape (Tree.node tc tk tv tl tr) .root (by simp)
        intro hcon
        rw [Option.some.injEq] at hcon
        have : (zipLeft (Tree.node tc tk tv tl tr) Path.root).1 =
            Tree.node pc2 pk2 pv2 (Tree.node gc gk gv gl gr) sib2 := by
          rw [← hcon]
        rw [hshape] at this
        simp at this
    · exact absurd (by rw [hq])
        (upRights_not_right p (Tree.node c k v l .nil) pc2 pk2 pv2 sib2 pp2)
  · -- right child exists: leftmost node of the right subtree
    obtain ⟨c2, k2, v2, r2, hshape⟩ :=
      zipLeft_shape (Tree.node rc rk rv rl rr) (.right c k v l p) (by simp)
    have hul := upLefts_of_zipLeft (Tree.node rc rk rv rl rr) (.right c k v l p)
    refine ⟨some ((zipLeft (Tree.node rc rk rv rl rr) (.right c k v l p)).1,
      (zipLeft (Tree.node rc rk rv rl rr) (.right c k v l p)).2), by rw [itInc], ?_⟩
    rw [hshape]
    rw [itDec_noLeft t c2 k2 v2 r2 _ ?_]
    · rw [← hshape, hul]
      rfl
    · rcases t with _ | ⟨tc, tk, tv, tl, tr⟩
      · exact absurd rfl htne
      rw [itBegin]
      intro hcon
      rw [Option.some.injEq] at hcon
      have h1 : cntR (zipLeft (Tree.node rc rk rv rl rr) (.right c k v l p)).2 =
          cntR p + 1 := by
        rw [zipLeft_cntR]
        rfl
      have h2 : cntR (zipLeft (Tree.node tc tk tv tl tr) .root).2 = 0 := by
        rw [zipLeft_cntR]
        rfl
      have hqe : (zipLeft (Tree.node rc rk rv rl rr) (.right c k v l p)).2 =
          (zipLeft (Tree.node tc tk tv tl tr) Path.root).2 := by
        rw [Prod.ext_iff] at hcon
        exact hcon.2
      rw [hqe, h2] at h1
      omega

theorem itDec_itInc (t : Tree K V) (it : It K V)
    (hval : (it = none ∧ t ≠ .nil) ∨
      (∃ f p, it = some (f, p) ∧ rebuild p f = t ∧ f ≠ .nil))
    (hnb : it ≠ itBegin t) :
    ∃ it', itDec t it = some it' ∧ itInc it' = some it := by
  rcases hval with ⟨rfl, htne⟩ | ⟨f, p, rfl, hre, hf⟩
  · -- decrement from end(): the rightmost node of the whole tree
    obtain ⟨c2, k2, v2, l2, hshape⟩ := zipRight_shape t .root htne
    have hur := upRights_of_zipRight t .root
    refine ⟨some ((zipRight t .root).1, (zipRight t .root).2), ?_, ?_⟩
    · rw [itDec_sentinel t hnb]
    · rw [hshape]
      rw [itInc_noRight]
      rw [← hshape, hur]
      rfl
  · rcases f with _ | ⟨c, k, v, l, r⟩
    · exact absurd rfl hf
    rcases l with _ | ⟨lc, lk, lv, ll, lr⟩
    · -- no left child: climb parent links
      rcases hq : upLefts (Tree.node c k v .nil r) p with ⟨g, q2⟩
      have hgne : g ≠ Tree.nil := by
        have := upLefts_node p (Tree.node c k v .nil r) (by simp)
        rw [hq] at this
        exact this
      have hzl := zipLeft_of_upLefts p (Tree.node c k v .nil r) (by simp)
      rw [hq] at hzl
      simp only at hzl
      rw [zipLeft] at hzl
      rcases q2 with _ | ⟨pc2, pk2, pv2, sib2, pp2⟩ | ⟨pc2, pk2, pv2, sib2, pp2⟩
      · -- climbed to the sentinel: this iterator was begin(), excluded
        exfalso
        apply hnb
        have hgt : g = t := by
          have := upLefts_rebuild p (Tree.node c k v .nil r)
          rw [hq] at this
          simp only [rebuild] at this
          rw [this, hre]
        rcases t with _ | ⟨tc, tk, tv, tl, tr⟩
        · exact absurd rfl (hre ▸ rebuild_ne_nil p _ (by simp))
        · rw [itBegin, ← hgt, hzl]
      · exact absurd (by rw [hq])
          (upLefts_not_left p (Tree.node c k v .nil r) pc2 pk2 pv2 sib2 pp2)
      · -- arrived via a right-child step
        refine ⟨some (Tree.node pc2 pk2 pv2 sib2 g, pp2), ?_, ?_⟩
        · rw [itDec_noLeft t c k v r p hnb, hq]
        · rcases g with _ | ⟨gc, gk, gv, gl, gr⟩
          · exact absurd rfl hgne
          rw [itInc]
          rw [hzl]
    · -- left child exists: rightmost of the left subtree
      obtain ⟨c2, k2, v2, l2, hshape⟩ :=
        zipRight_shape (Tree.node lc lk lv ll lr) (.left c k v r p) (by simp)
      have hur := upRights_of_zipRight (Tree.node lc lk lv ll lr) (.left c k v r p)
      refine ⟨some ((zipRight (Tree.node lc lk lv ll lr) (.left c k v r p)).1,
        (zipRight (Tree.node lc lk lv ll lr) (.left c k v r p)).2), ?_, ?_⟩
      · rw [itDec_leftChild t c k v lc lk lv ll lr r p hnb]
      · rw [hshape]
        rw [itInc_noRight]
        rw [← hshape, hur]
        rfl

end IterInverse

/-- In-order position of an iterator: the number of stored pairs strictly
before it (`end()` sits after all of them). -/
def itIdx (t : Tree K V) (it : It K V) : Nat :=
  match it with
  | none => (inorder t).length
  | some (f, p) =>
    (inL p).length + (match f with
      | .nil => 0
      | .node _ _ _ l _ => (inorder l).length)

theorem upRights_idx (p : Path K V) :
    ∀ t : Tree K V,
      (inL (upRights t p).2).length + (inorder (upRights t p).1).length =
        (inL p).length + (inorder t).length := by
  induction p with
  | root => intro t; rfl
  | left c k v sib pp ih => intro t; rfl
  | right c k v sib pp ih =>
    intro t
    rw [upRights]
    rw [ih]
    simp [inL, inorder]
    omega

section IterIdx

variable [DecidableEq K] [DecidableEq V]

theorem itInc_idx (t f : Tree K V) (p : Path K V) (it' : It K V)
    (hre : rebuild p f = t) (hf : f ≠ .nil)
    (h : itInc (some (f, p)) = some it') :
    itIdx t it' = itIdx t (some (f, p)) + 1 := by
  rcases f with _ | ⟨c, k, v, l, r⟩
  · exact absurd rfl hf
  rcases r with _ | ⟨rc, rk, rv, rl, rr⟩
  · rcases hq : upRights (Tree.node c k v l .nil) p with ⟨g, q2⟩
    have hidx := upRights_idx p (Tree.node c k v l .nil)
    rw [hq] at hidx
    simp only at hidx
    rw [itInc_noRight, hq] at h
    rcases q2 with _ | ⟨pc2, pk2, pv2, sib2, pp2⟩ | ⟨pc2, pk2, pv2, sib2, pp2⟩
    · obtain rfl : (none : It K V) = it' := by simpa using h
      have hgt : rebuild Path.root g = t := by
        have := upRights_rebuild p (Tree.node c k v l .nil)
        rw [hq] at this
        simp only at this
        rw [this, hre]
      simp only [rebuild] at hgt
      subst hgt
      simp [itIdx, inL, inorder] at hidx ⊢
      all_goals omega
    · obtain rfl : (some (Tree.node pc2 pk2 pv2 g sib2, pp2) : It K V) = it' := by
        simpa using h
      simp [itIdx, inL, inorder] at hidx ⊢
      all_goals omega
    · exact absurd (by rw [hq])
        (upRights_not_right p (Tree.node c k v l .nil) pc2 pk2 pv2 sib2 pp2)
  · rw [itInc] at h
    obtain rfl : (some (zipLeft (Tree.node rc rk rv rl rr) (.right c k v l p)) :
        It K V) = it' := by simpa using h
    obtain ⟨c2, k2, v2, r2, hshape⟩ :=
      zipLeft_shape (Tree.node rc rk rv rl rr) (.right c k v l p) (by simp)
    have hinl := (zipLeft_list (Tree.node rc rk rv rl rr) (.right c k v l p)).1
    rcases hz : zipLeft (Tree.node rc rk rv rl rr) (.right c k v l p) with ⟨zf, zq⟩
    rw [hz] at hshape hinl
    simp only at hshape hinl
    subst hshape
    simp [itIdx, hinl, inL, inorder]
    all_goals omega

end IterIdx


theorem copyT_id (t : Tree K V) : copyT t = t := by
  induction t with
  | nil => rfl
  | node c k v l r ihl ihr => rw [copyT, ihl, ihr]

section MoreListLemmas

variable [LinearOrder K]

theorem lookupL_insList_self (k : K) (v : V) (xs : List (K × V))
    (habs : lookupL k xs = none) : lookupL k (insList k v xs) = some v := by
  induction xs with
  | nil => simp [insList, lookupL]
  | cons x xs ih =>
    rw [lookupL] at habs
    by_cases hx : x.1 = k
    · simp [hx] at habs
    · rw [if_neg hx] at habs
      rw [insList]
      by_cases hlt : k < x.1
      · rw [if_pos hlt, lookupL, if_pos rfl]
      · rw [if_neg hlt, lookupL, if_neg hx]
        exact ih habs

theorem lookupL_insList_other (k k' : K) (v : V) (xs : List (K × V))
    (hne : k' ≠ k) : lookupL k' (insList k v xs) = lookupL k' xs := by
  induction xs with
  | nil => simp [insList, lookupL, Ne.symm hne]
  | cons x xs ih =>
    rw [insList]
    by_cases hlt : k < x.1
    · rw [if_pos hlt, lookupL, if_neg (Ne.symm hne)]
    · rw [if_neg hlt, lookupL, lookupL]
      by_cases hx : x.1 = k'
      · rw [if_pos hx, if_pos hx]
      · rw [if_neg hx, if_neg hx]
        exact ih

theorem mem_insList_self (k : K) (v : V) (xs : List (K × V)) :
    (k, v) ∈ insList k v xs := by
  induction xs with
  | nil => simp [insList]
  | cons x xs ih =>
    rw [insList]
    by_cases hlt : k < x.1
    · rw [if_pos hlt]; simp
    · rw [if_neg hlt]
      exact List.mem_cons_of_mem x ih

theorem mem_insList_of_mem (k : K) (v : V) {xs : List (K × V)} {y : K × V}
    (h : y ∈ xs) : y ∈ insList k v xs := by
  induction xs with
  | nil => simp at h
  | cons x xs ih =>
    rw [insList]
    by_cases hlt : k < x.1
    · rw [if_pos hlt]
      exact List.mem_cons_of_mem _ h
    · rw [if_neg hlt]
      rcases List.mem_cons.mp h with rfl | h
      · simp
      · exact List.mem_cons_of_mem x (ih h)

theorem lookupL_middle (k2 k' : K) (v2 : V) (A B : List (K × V))
    (hne : k' ≠ k2) :
    lookupL k' (A ++ (k2, v2) :: B) = lookupL k' (A ++ B) := by
  rcases hA : lookupL k' A with _ | v1
  · rw [lookupL_append_none _ hA, lookupL_append_none _ hA, lookupL,
      if_neg (Ne.symm hne)]
  · rw [lookupL_append_some _ hA, lookupL_append_some _ hA]

end MoreListLemmas


/-!
### The ten specification claims
-/

/-- C2: the deep-clone description of assignment fails in exactly the case
the claim highlights, an empty source `b`.  The private `clear` takes the
node pointer by value, so releasing the old nodes leaves `sentinel->left`
pointing at the freed root, and `copy` returns early on a null source
without assigning the member: for a non-empty `a` and empty `b`, `a = b`
leaves `a.sentinel->left` dangling and every subsequent lookup, iteration
or insertion on `a` is a use after free (`mapAssign` returns `none`), not
the behavior of a fresh copy of `b`.  Self-assignment is indeed a no-op and
every other path (non-empty source, or an already-empty destination) does
end in a deep clone of `b` with `b`'s length. -/
theorem claim_C2_assignment_bug :
    mapAssign 0 1 (runOps [Op.ins 1 10] : MapS Nat Nat) emptyMap = none ∧
    (∀ (aid bid : Nat) (a b : MapS K V) (c : Color) (k : K) (v : V)
      (l r : Tree K V), aid ≠ bid → b.tree = .nil →
      a.tree = .node c k v l r → mapAssign aid bid a b = none) ∧
    (∀ (aid : Nat) (a : MapS K V), mapAssign aid aid a a = some a) ∧
    (∀ (aid bid : Nat) (a b : MapS K V), aid ≠ bid → b.tree ≠ .nil →
      mapAssign aid bid a b = some ⟨copyT b.tree, b.len⟩) ∧
    (∀ (aid bid : Nat) (a b : MapS K V), aid ≠ bid → a.tree = .nil →
      mapAssign aid bid a b = some ⟨copyT b.tree, b.len⟩) := by
  refine ⟨rfl, ?_, ?_, ?_, ?_⟩
  · intro aid bid a b c k v l r hne hb ha
    unfold mapAssign
    rw [if_neg hne, hb, ha]
  · intro aid a
    unfold mapAssign
    rw [if_pos rfl]
  · intro aid bid a b hne hb
    unfold mapAssign
    rw [if_neg hne]
    cases hbt : b.tree with
    | nil => exact absurd hbt hb
    | node c k v l r => cases a.tree <;> rfl
  · intro aid bid a b hne ha
    unfold mapAssign
    rw [if_neg hne, ha]
    cases b.tree with
    | nil => rw [copyT]
    | node c k v l r => rfl

/-- C3: inserting a pair whose key is already present with stored value
`v0` reports `inserted = false`, returns the existing node's payload
`(k, v0)` (the stored value is not overwritten), and leaves the map — tree
and `size()` alike — completely unchanged. -/
theorem claim_C3_duplicate_insert [LinearOrder K] (m : MapS K V) (k : K)
    (v0 w : V) (hInv : Inv m)
    (hpresent : lookupL k (inorder m.tree) = some v0) :
    (mapInsert m k w).2.2 = false ∧
    (mapInsert m k w).1 = m ∧
    (mapInsert m k w).1.len = m.len ∧
    (mapInsert m k w).2.1 = (k, v0) := by
  obtain ⟨-, hiff, -, hfalse⟩ := mapInsert_spec m k w hInv
  have hb : (mapInsert m k w).2.2 = false := by
    cases hbv : (mapInsert m k w).2.2
    · rfl
    · rw [hiff.mp hbv] at hpresent
      exact absurd hpresent (by simp)
  obtain ⟨hm, v1, hpay, hsome⟩ := hfalse hb
  rw [hpresent] at hsome
  have hv : v1 = v0 := (Option.some.inj hsome).symm
  exact ⟨hb, hm, by rw [hm], by rw [hpay, hv]⟩

theorem claim_C3_duplicate_insert_witness :
    (mapInsert (runOps [Op.ins 1 10, Op.ins 2 20] : MapS Nat Nat) 1 99).2.2
      = false ∧
    (mapInsert (runOps [Op.ins 1 10, Op.ins 2 20] : MapS Nat Nat) 1 99).1
      = runOps [Op.ins 1 10, Op.ins 2 20] ∧
    (mapInsert (runOps [Op.ins 1 10, Op.ins 2 20] : MapS Nat Nat) 1 99).1.len
      = (runOps [Op.ins 1 10, Op.ins 2 20] : MapS Nat Nat).len ∧
    (mapInsert (runOps [Op.ins 1 10, Op.ins 2 20] : MapS Nat Nat) 1 99).2.1
      = (1, 10) :=
  claim_C3_duplicate_insert (runOps [Op.ins 1 10, Op.ins 2 20]) 1 10 99
    (Inv_runOps _) (by decide)

/-- C6: on every map, empty included, incrementing the `end()` iterator
throws `invalid_iterator` (the increment returns no new position, so the
iterator neither wraps around nor moves), and decrementing the `begin()`
iterator likewise throws. -/
theorem claim_C6_iterator_bounds [DecidableEq K] [DecidableEq V]
    (t : Tree K V) :
    itInc (none : It K V) = none ∧ itDec t (itBegin t) = none :=
  ⟨rfl, by unfold itDec; rw [if_pos rfl]⟩

/-- C10: `operator->` performs no validity check: on the `end()` iterator it
returns the sentinel's null data pointer (`none`) instead of raising, and on
any real node it returns that node's stored pair, while `operator*` on the
same `end()` iterator raises `invalid_iterator`. -/
theorem claim_C10_arrow_unchecked (f : Tree K V) (p : Path K V) :
    itArrow (none : It K V) = none ∧
    itStar (none : It K V) = .error () ∧
    itArrow (some (f, p)) = payload f :=
  ⟨rfl, rfl, rfl⟩


/-- Duplicate-key insertion is a no-op apart from reporting the existing
node: shared workhorse for the `insert` and `operator[]` claims. -/
theorem dupInsert_noop [LinearOrder K] (m : MapS K V) (k : K)
    (v0 w : V) (hInv : Inv m)
    (hpresent : lookupL k (inorder m.tree) = some v0) :
    (mapInsert m k w).2.2 = false ∧
    (mapInsert m k w).1 = m ∧
    (mapInsert m k w).1.len = m.len ∧
    (mapInsert m k w).2.1 = (k, v0) := by
  obtain ⟨-, hiff, -, hfalse⟩ := mapInsert_spec m k w hInv
  have hb : (mapInsert m k w).2.2 = false := by
    cases hbv : (mapInsert m k w).2.2
    · rfl
    · rw [hiff.mp hbv] at hpresent
      exact absurd hpresent (by simp)
  obtain ⟨hm, v1, hpay, hsome⟩ := hfalse hb
  rw [hpresent] at hsome
  have hv : v1 = v0 := (Option.some.inj hsome).symm
  exact ⟨hb, hm, by rw [hm], by rw [hpay, hv]⟩

/-- C4: on a key absent from the map, mutable `operator[]` inserts exactly
one element carrying the default-constructed value and grows `size()` by
exactly one; a second mutable access on the same key returns the very same
element (same mapped value and an unchanged map), and the read-only
(`const`) `operator[]` on the absent key raises `index_out_of_bound`
instead of inserting. -/
theorem claim_C4_bracket_autoinsert [LinearOrder K] [Inhabited V]
    (m : MapS K V) (k : K) (hInv : Inv m)
    (habs : lookupL k (inorder m.tree) = none) :
    (mapBracket m k).2 = (default : V) ∧
    (mapBracket m k).1.len = m.len + 1 ∧
    inorder (mapBracket m k).1.tree = insList k default (inorder m.tree) ∧
    lookupL k (inorder (mapBracket m k).1.tree) = some (default : V) ∧
    (mapBracket (mapBracket m k).1 k).2 = (default : V) ∧
    (mapBracket (mapBracket m k).1 k).1 = (mapBracket m k).1 ∧
    mapBracketC m k = .error () := by
  obtain ⟨hInv2, hiff, htrue, -⟩ := mapInsert_spec m k (default : V) hInv
  have hb : (mapInsert m k (default : V)).2.2 = true := hiff.mpr habs
  obtain ⟨hlist, hlen, hpay⟩ := htrue hb
  have hbr1 : (mapBracket m k).1 = (mapInsert m k (default : V)).1 := rfl
  have hbr2 : (mapBracket m k).2 = (mapInsert m k (default : V)).2.1.2 := rfl
  have hlook : lookupL k (inorder (mapBracket m k).1.tree)
      = some (default : V) := by
    rw [hbr1, hlist]
    exact lookupL_insList_self k (default : V) (inorder m.tree) habs
  have hInv3 : Inv (mapBracket m k).1 := by rw [hbr1]; exact hInv2
  have hsecond := dupInsert_noop (mapBracket m k).1 k
    (default : V) (default : V) hInv3 hlook
  have hsr1 : (mapBracket (mapBracket m k).1 k).1
      = (mapInsert (mapBracket m k).1 k (default : V)).1 := rfl
  have hsr2 : (mapBracket (mapBracket m k).1 k).2
      = (mapInsert (mapBracket m k).1 k (default : V)).2.1.2 := rfl
  refine ⟨by rw [hbr2, hpay], by rw [hbr1, hlen], by rw [hbr1, hlist],
    hlook, ?_, ?_, ?_⟩
  · rw [hsr2, hsecond.2.2.2]
  · rw [hsr1, hsecond.2.1]
  · have hft : findT k m.tree = none := by
      rw [findT_lookup k m.tree none none (Bnd_top hInv), habs]
      rfl
    unfold mapBracketC
    rw [hft]

theorem claim_C4_bracket_autoinsert_witness :
    (mapBracket (runOps [Op.ins 2 5] : MapS Nat Nat) 7).2 = 0 ∧
    (mapBracket (runOps [Op.ins 2 5] : MapS Nat Nat) 7).1.len
      = (runOps [Op.ins 2 5] : MapS Nat Nat).len + 1 ∧
    inorder (mapBracket (runOps [Op.ins 2 5] : MapS Nat Nat) 7).1.tree
      = insList 7 0 (inorder (runOps [Op.ins 2 5] : MapS Nat Nat).tree) ∧
    lookupL 7 (inorder (mapBracket (runOps [Op.ins 2 5] : MapS Nat Nat) 7).1.tree)
      = some 0 ∧
    (mapBracket (mapBracket (runOps [Op.ins 2 5] : MapS Nat Nat) 7).1 7).2 = 0 ∧
    (mapBracket (mapBracket (runOps [Op.ins 2 5] : MapS Nat Nat) 7).1 7).1
      = (mapBracket (runOps [Op.ins 2 5] : MapS Nat Nat) 7).1 ∧
    mapBracketC (runOps [Op.ins 2 5] : MapS Nat Nat) 7 = .error () :=
  claim_C4_bracket_autoinsert (runOps [Op.ins 2 5]) 7 (Inv_runOps _) (by decide)

/-- C5: bounds-checked lookup `at(key)` returns the mapped value whenever an
element with an equivalent key is present and raises `index_out_of_bound`
when none is; `mapAt` takes the map by value and returns only the lookup
result, so the map's contents are unchanged in either case. -/
theorem claim_C5_at_checked [LinearOrder K] (m : MapS K V) (k : K)
    (hInv : Inv m) :
    (∀ v0, lookupL k (inorder m.tree) = some v0 → mapAt m k = .ok v0) ∧
    (lookupL k (inorder m.tree) = none → mapAt m k = .error ()) := by
  have hft := findT_lookup k m.tree none none (Bnd_top hInv)
  constructor
  · intro v0 hv0
    unfold mapAt
    rw [hft, hv0]
    rfl
  · intro hnone
    unfold mapAt
    rw [hft, hnone]
    rfl

theorem claim_C5_at_checked_witness :
    mapAt (runOps [Op.ins 3 30] : MapS Nat Nat) 3 = .ok 30 ∧
    mapAt (runOps [Op.ins 3 30] : MapS Nat Nat) 9 = .error () :=
  ⟨(claim_C5_at_checked (runOps [Op.ins 3 30]) 3 (Inv_runOps _)).1 30
      (by decide),
   (claim_C5_at_checked (runOps [Op.ins 3 30]) 9 (Inv_runOps _)).2
      (by decide)⟩

theorem mem_keysL [DecidableEq K] (k : K) (xs : List (K × V)) :
    k ∈ xs.map Prod.fst ↔ ¬ lookupL k xs = none := by
  induction xs with
  | nil => simp [lookupL]
  | cons x xs ih =>
    rw [lookupL]
    by_cases hx : x.1 = k
    · simp [hx]
    · rw [if_neg hx]
      simpa [Ne.symm hx] using ih

/-- C9: insertion is a frame operation on the stored pairs: the lookup of
every key other than the inserted one is exactly the same before and after
`insert((k, v))`, the key set afterwards is the old key set together with
`{k}`, and the rebalancing rotations it uses never change any stored pair
(their in-order payload sequence is preserved; they only rewire links and
the fixup only recolors). -/
theorem claim_C9_insert_frame [LinearOrder K] (m : MapS K V) (k : K) (v : V)
    (hInv : Inv m) :
    (∀ t : Tree K V, inorder (rotateLeft t) = inorder t ∧
      inorder (rotateRight t) = inorder t) ∧
    (∀ k2, k2 ≠ k →
      lookupL k2 (inorder (mapInsert m k v).1.tree)
        = lookupL k2 (inorder m.tree)) ∧
    (∀ k2, k2 ∈ keys (mapInsert m k v).1.tree ↔
      (k2 ∈ keys m.tree ∨ k2 = k)) := by
  obtain ⟨-, hiff, htrue, hfalse⟩ := mapInsert_spec m k v hInv
  have hrot : ∀ t : Tree K V, inorder (rotateLeft t) = inorder t ∧
      inorder (rotateRight t) = inorder t :=
    fun t => ⟨inorder_rotateLeft t, inorder_rotateRight t⟩
  cases hb : (mapInsert m k v).2.2
  · obtain ⟨hm, v0, -, hsome⟩ := hfalse hb
    refine ⟨hrot, fun k2 _ => by rw [hm], fun k2 => ?_⟩
    rw [hm]
    constructor
    · exact Or.inl
    · rintro (h | rfl)
      · exact h
      · rw [keys, mem_keysL, hsome]
        simp
  · obtain ⟨hlist, -, -⟩ := htrue hb
    have habs := hiff.mp hb
    refine ⟨hrot, fun k2 hne => ?_, fun k2 => ?_⟩
    · rw [hlist]
      exact lookupL_insList_other k k2 v (inorder m.tree) hne
    · by_cases hk2 : k2 = k
      · subst hk2
        constructor
        · intro _
          exact Or.inr rfl
        · intro _
          rw [keys, mem_keysL, hlist,
            lookupL_insList_self k2 v (inorder m.tree) habs]
          simp
      · rw [keys, keys, mem_keysL, mem_keysL, hlist,
          lookupL_insList_other k k2 v (inorder m.tree) hk2]
        simp [hk2]

theorem claim_C9_insert_frame_witness :
    (∀ t : Tree Nat Nat, inorder (rotateLeft t) = inorder t ∧
      inorder (rotateRight t) = inorder t) ∧
    (∀ k2, k2 ≠ 2 →
      lookupL k2 (inorder (mapInsert (runOps [Op.ins 1 10] : MapS Nat Nat)
        2 20).1.tree) = lookupL k2 (inorder (runOps [Op.ins 1 10] :
          MapS Nat Nat).tree)) ∧
    (∀ k2, k2 ∈ keys (mapInsert (runOps [Op.ins 1 10] : MapS Nat Nat)
        2 20).1.tree ↔
      (k2 ∈ keys (runOps [Op.ins 1 10] : MapS Nat Nat).tree ∨ k2 = 2)) :=
  claim_C9_insert_frame (runOps [Op.ins 1 10]) 2 20 (Inv_runOps _)


/-- C7: `erase(pos)` throws `invalid_iterator` — before touching the tree —
when `pos` is the `end()` iterator or belongs to a different map instance;
on a valid interior iterator it removes exactly the element `pos` points to
(the in-order sequence loses precisely that pair and every other key's
lookup is unchanged), decrements `size()` by one, and a subsequent `find`
on the removed key returns `end()` while `count` on it returns 0. -/
theorem claim_C7_erase_checked [LinearOrder K] [DecidableEq V] (mid : Nat)
    (m : MapS K V) (pos : MIter K V) (hInv : Inv m) :
    ((pos.it = none ∨ pos.owner ≠ mid) → mapErase mid m pos = .error ()) ∧
    (∀ c2 k2 v2 fl fr p, pos.owner = mid →
      pos.it = some (.node c2 k2 v2 fl fr, p) →
      rebuild p (.node c2 k2 v2 fl fr) = m.tree →
      ∃ m2, mapErase mid m pos = .ok m2 ∧
        m2.len = m.len - 1 ∧
        inorder m.tree = (inL p ++ inorder fl) ++ (k2, v2) ::
          (inorder fr ++ inR p) ∧
        inorder m2.tree = (inL p ++ inorder fl) ++ (inorder fr ++ inR p) ∧
        mapFind m2 k2 = none ∧
        mapCount m2 k2 = 0 ∧
        (∀ k3, k3 ≠ k2 →
          lookupL k3 (inorder m2.tree) = lookupL k3 (inorder m.tree))) := by
  constructor
  · intro h
    unfold mapErase
    rcases h with hit | hown
    · by_cases ho : pos.owner = mid
      · rw [if_pos (Or.inl ⟨hit, ho⟩)]
      · rw [if_pos (Or.inr ho)]
    · rw [if_pos (Or.inr hown)]
  · intro c2 k2 v2 fl fr p hown hit hre
    have hguard : ¬ ((pos.it = none ∧ pos.owner = mid) ∨ pos.owner ≠ mid) := by
      rw [hit, hown]
      simp
    have hok : mapErase mid m pos = .ok ⟨if m.len = 1 then .nil
        else removeAt (.node c2 k2 v2 fl fr) p, m.len - 1⟩ := by
      unfold mapErase
      rw [if_neg hguard, hit]
    have hold : inorder m.tree = (inL p ++ inorder fl) ++ (k2, v2) ::
        (inorder fr ++ inR p) := by
      rw [← hre, inorder_rebuild]
      simp [inorder]
    have hnew : inorder (if m.len = 1 then (.nil : Tree K V)
        else removeAt (.node c2 k2 v2 fl fr) p)
        = (inL p ++ inorder fl) ++ (inorder fr ++ inR p) := by
      by_cases hlen : m.len = 1
      · rw [if_pos hlen]
        have hlenlist : (inorder m.tree).length = 1 := by rw [← hInv.2.2, hlen]
        rw [hold] at hlenlist
        simp only [List.length_append, List.length_cons] at hlenlist
        have h1 : (inL p).length = 0 := by omega
        have h2 : (inorder fl).length = 0 := by omega
        have h3 : (inorder fr).length = 0 := by omega
        have h4 : (inR p).length = 0 := by omega
        simp only [List.length_eq_zero] at h1 h2 h3 h4
        simp [h1, h2, h3, h4, inorder]
      · rw [if_neg hlen, removeAt_list]
        simp
    have hsortedOld := hold ▸ hInv.2.1
    have hsub : SortedKV ((inL p ++ inorder fl) ++ (inorder fr ++ inR p)) := by
      refine List.Pairwise.sublist ?_ hsortedOld
      exact List.Sublist.append_left (List.sublist_cons_self _ _) _
    rw [SortedKV, List.pairwise_append] at hsortedOld
    have hs2 : SortedKV (inorder (if m.len = 1 then (.nil : Tree K V)
        else removeAt (.node c2 k2 v2 fl fr) p)) := by
      rw [hnew]
      exact hsub
    have hb2 : Bnd none none (if m.len = 1 then (.nil : Tree K V)
        else removeAt (.node c2 k2 v2 fl fr) p) :=
      Bnd_of_sorted hs2 fun x _ => ⟨trivial, trivial⟩
    have hlook2 : lookupL k2 (inorder (if m.len = 1 then (.nil : Tree K V)
        else removeAt (.node c2 k2 v2 fl fr) p)) = none := by
      rw [hnew]
      refine lookupL_eq_none fun x hx => ?_
      rcases List.mem_append.mp hx with hxA | hxB
      · exact ne_of_lt (hsortedOld.2.2 x hxA (k2, v2) (by simp))
      · exact ne_of_gt (List.rel_of_pairwise_cons hsortedOld.2.1 hxB)
    have hfind : mapFind (⟨if m.len = 1 then (.nil : Tree K V)
        else removeAt (.node c2 k2 v2 fl fr) p, m.len - 1⟩ : MapS K V) k2
        = none := by
      unfold mapFind
      exact (findZ_none_iff k2 _ .root hb2).mpr hlook2
    have hft2 : findT k2 (if m.len = 1 then (.nil : Tree K V)
        else removeAt (.node c2 k2 v2 fl fr) p) = none := by
      rw [findT_lookup k2 _ none none hb2, hlook2]
      rfl
    have hcount : mapCount (⟨if m.len = 1 then (.nil : Tree K V)
        else removeAt (.node c2 k2 v2 fl fr) p, m.len - 1⟩ : MapS K V) k2
        = 0 := by
      unfold mapCount
      rw [show (MapS.mk (if m.len = 1 then (.nil : Tree K V)
        else removeAt (.node c2 k2 v2 fl fr) p) (m.len - 1)).tree
        = (if m.len = 1 then (.nil : Tree K V)
          else removeAt (.node c2 k2 v2 fl fr) p) from rfl, hft2]
    have hframe : ∀ k3, k3 ≠ k2 →
        lookupL k3 (inorder (if m.len = 1 then (.nil : Tree K V)
          else removeAt (.node c2 k2 v2 fl fr) p))
          = lookupL k3 (inorder m.tree) := by
      intro k3 hne
      rw [hnew, hold]
      exact (lookupL_middle k2 k3 v2 _ _ hne).symm
    exact ⟨⟨if m.len = 1 then .nil else removeAt (.node c2 k2 v2 fl fr) p,
      m.len - 1⟩, hok, rfl, hold, hnew, hfind, hcount, hframe⟩

theorem claim_C7_erase_checked_witness :
    mapErase 0 (runOps [Op.ins 2 20, Op.ins 1 10, Op.ins 3 30] : MapS Nat Nat)
      ⟨0, some (.node .BLACK 2 20 (.node .RED 1 10 .nil .nil)
        (.node .RED 3 30 .nil .nil), .root)⟩
      = .ok ⟨.node .BLACK 3 30 (.node .RED 1 10 .nil .nil) .nil, 2⟩ ∧
    mapFind (⟨.node .BLACK 3 30 (.node .RED 1 10 .nil .nil) .nil, 2⟩ :
      MapS Nat Nat) 2 = none ∧
    mapCount (⟨.node .BLACK 3 30 (.node .RED 1 10 .nil .nil) .nil, 2⟩ :
      MapS Nat Nat) 2 = 0 ∧
    mapErase 1 (runOps [Op.ins 2 20, Op.ins 1 10, Op.ins 3 30] : MapS Nat Nat)
      ⟨0, some (.node .BLACK 2 20 (.node .RED 1 10 .nil .nil)
        (.node .RED 3 30 .nil .nil), .root)⟩ = .error () := by
  obtain ⟨m2, hok, hlen, hold, hnew, hfind, hcount, hframe⟩ :=
    (claim_C7_erase_checked 0
      (runOps [Op.ins 2 20, Op.ins 1 10, Op.ins 3 30])
      ⟨0, some (.node .BLACK 2 20 (.node .RED 1 10 .nil .nil)
        (.node .RED 3 30 .nil .nil), .root)⟩ (Inv_runOps _)).2
      .BLACK 2 20 (.node .RED 1 10 .nil .nil) (.node .RED 3 30 .nil .nil)
      .root rfl rfl (by decide)
  have hcomp : mapErase 0
      (runOps [Op.ins 2 20, Op.ins 1 10, Op.ins 3 30] : MapS Nat Nat)
      ⟨0, some (.node .BLACK 2 20 (.node .RED 1 10 .nil .nil)
        (.node .RED 3 30 .nil .nil), .root)⟩
      = .ok ⟨.node .BLACK 3 30 (.node .RED 1 10 .nil .nil) .nil, 2⟩ := by
    rfl
  rw [hok] at hcomp
  injection hcomp with he
  subst he
  refine ⟨hok, hfind, hcount, ?_⟩
  exact (claim_C7_erase_checked 1
    (runOps [Op.ins 2 20, Op.ins 1 10, Op.ins 3 30])
    ⟨0, some (.node .BLACK 2 20 (.node .RED 1 10 .nil .nil)
      (.node .RED 3 30 .nil .nil), .root)⟩ (Inv_runOps _)).1
    (Or.inr (by decide))

/-- C8: on every map, increment and decrement are mutual inverses at every
interior position: decrementing the successor of a valid node returns to
that node, and for every valid iterator other than `begin()` (the `end()`
iterator of a non-empty map included) incrementing the predecessor returns
to it; moreover increment follows the successor rule — the new position is
exactly the next pair of the in-order sequence, its index growing by
exactly one. -/
theorem claim_C8_inc_dec [DecidableEq K] [DecidableEq V] (t : Tree K V) :
    (∀ f p, rebuild p f = t → f ≠ .nil →
      ∃ it2, itInc (some (f, p)) = some it2 ∧
        itDec t it2 = some (some (f, p)) ∧
        itIdx t it2 = itIdx t (some (f, p)) + 1) ∧
    (∀ it : It K V,
      ((it = none ∧ t ≠ .nil) ∨
        ∃ f p, it = some (f, p) ∧ rebuild p f = t ∧ f ≠ .nil) →
      it ≠ itBegin t →
      ∃ it2, itDec t it = some it2 ∧ itInc it2 = some it) := by
  constructor
  · intro f p hre hf
    obtain ⟨it2, hinc, hdec⟩ := itInc_itDec t f p hre hf
    exact ⟨it2, hinc, hdec, itInc_idx t f p it2 hre hf hinc⟩
  · intro it hval hnb
    exact itDec_itInc t it hval hnb

theorem claim_C8_inc_dec_witness :
    itDec (.node .BLACK 2 0 (.node .RED 1 0 .nil .nil)
        (.node .RED 3 0 .nil .nil) : Tree Nat Nat)
      (some (.node .BLACK 2 0 (.node .RED 1 0 .nil .nil)
        (.node .RED 3 0 .nil .nil), .root))
      = some (some (.node .RED 1 0 .nil .nil,
        .left .BLACK 2 0 (.node .RED 3 0 .nil .nil) .root)) ∧
    itIdx (.node .BLACK 2 0 (.node .RED 1 0 .nil .nil)
        (.node .RED 3 0 .nil .nil) : Tree Nat Nat)
      (some (.node .BLACK 2 0 (.node .RED 1 0 .nil .nil)
        (.node .RED 3 0 .nil .nil), .root))
      = itIdx (.node .BLACK 2 0 (.node .RED 1 0 .nil .nil)
          (.node .RED 3 0 .nil .nil) : Tree Nat Nat)
        (some (.node .RED 1 0 .nil .nil,
          .left .BLACK 2 0 (.node .RED 3 0 .nil .nil) .root)) + 1 ∧
    itDec (.node .BLACK 2 0 (.node .RED 1 0 .nil .nil)
        (.node .RED 3 0 .nil .nil) : Tree Nat Nat) none
      = some (some (.node .RED 3 0 .nil .nil,
        .right .BLACK 2 0 (.node .RED 1 0 .nil .nil) .root)) ∧
    itInc (some (.node .RED 3 0 .nil .nil,
        .right .BLACK 2 0 (.node .RED 1 0 .nil .nil) .root) : It Nat Nat)
      = some none := by
  obtain ⟨it2, hinc, hdec, hidx⟩ :=
    (claim_C8_inc_dec (.node .BLACK 2 0 (.node .RED 1 0 .nil .nil)
      (.node .RED 3 0 .nil .nil) : Tree Nat Nat)).1
      (.node .RED 1 0 .nil .nil)
      (.left .BLACK 2 0 (.node .RED 3 0 .nil .nil) .root) (by decide)
      (by decide)
  have hcomp : itInc (some (.node .RED 1 0 .nil .nil,
      .left .BLACK 2 0 (.node .RED 3 0 .nil .nil) .root) : It Nat Nat)
      = some (some (.node .BLACK 2 0 (.node .RED 1 0 .nil .nil)
        (.node .RED 3 0 .nil .nil), .root)) := by decide
  rw [hinc] at hcomp
  injection hcomp with he
  subst he
  obtain ⟨it3, hdec3, hinc3⟩ :=
    (claim_C8_inc_dec (.node .BLACK 2 0 (.node .RED 1 0 .nil .nil)
      (.node .RED 3 0 .nil .nil) : Tree Nat Nat)).2 none
      (Or.inl ⟨rfl, by decide⟩) (by decide)
  have hcomp3 : itDec (.node .BLACK 2 0 (.node .RED 1 0 .nil .nil)
      (.node .RED 3 0 .nil .nil) : Tree Nat Nat) none
      = some (some (.node .RED 3 0 .nil .nil,
        .right .BLACK 2 0 (.node .RED 1 0 .nil .nil) .root)) := by decide
  rw [hdec3] at hcomp3
  injection hcomp3 with he3
  subst he3
  exact ⟨hdec, hidx.symm ▸ rfl, hdec3, hinc3⟩

end SjtuMap
